import Mathlib

/-!
# teslafan: the control loop of `src/host/teslafan.c`

A shallow embedding of the loop in `main` (lines 143-165) and of the values it
computes with.

Modelling conventions.
* A C `float` is an IEEE 754 binary32 value (`F32`): a finite value, an
  infinity or a NaN. Every arithmetic operation rounds its exact result to
  nearest, ties to even, with 24 significant bits, exponents from -126 to 127,
  gradual underflow and overflow to infinity. Each operation of lines 151-157
  is rounded on its own (`float` evaluation, no fused multiply-add).
* `unsigned int temp` is a `Nat` (below 2^32 where that matters);
  `unsigned char pwm` is a `Nat` whose range 0..255 is proved, not assumed.
* The conversion of a NaN to `int` is the x86 one: the result is `INT_MIN`,
  and `abs(INT_MIN)` wraps to `INT_MIN`.
* The outside world of one iteration (the return code and the reading of
  `nvmlDeviceGetTemperature`, the return values of `write` and `fsync`) is an
  explicit input; the calls the loop makes are recorded in a trace.
-/

namespace Teslafan

/-! ## Single-precision values -/

/-- A value of the C type `float`: finite, infinite or NaN. The two zeros are
one value here: no operation of the program tells them apart. -/
inductive F32 where
  | fin (q : ℚ) : F32
  | pinf : F32
  | ninf : F32
  | nan : F32
deriving DecidableEq, Repr

/-- Nearest integer of an exact quotient, ties to the even integer. -/
def roundNE (y : ℚ) : ℤ :=
  if y - ⌊y⌋ < 1 / 2 then ⌊y⌋
  else if 1 / 2 < y - ⌊y⌋ then ⌊y⌋ + 1
  else if ⌊y⌋ % 2 = 0 then ⌊y⌋ else ⌊y⌋ + 1

/-- Exponent of the unit in the last place at `x`: 24 significant bits, the
exponent of the leading bit never below -126. -/
def ulpExp (x : ℚ) : ℤ :=
  max (Int.log 2 |x|) (-126) - 23

/-- The multiple of the unit in the last place nearest to `x`, ties to the
even multiple. -/
def rndVal (x : ℚ) : ℚ :=
  (roundNE (x / 2 ^ ulpExp x) : ℚ) * 2 ^ ulpExp x

/-- Rounding of an exact result to binary32: to nearest, ties to even; a
rounded magnitude of 2^128 or more is an infinity. -/
def rnd (x : ℚ) : F32 :=
  if 2 ^ 128 ≤ rndVal x then F32.pinf
  else if rndVal x ≤ -2 ^ 128 then F32.ninf
  else F32.fin (rndVal x)

/-- The largest finite `float`, `FLT_MAX` of `float.h`. -/
def FLT_MAX : ℚ := 2 ^ 128 - 2 ^ 104

/-- A finite `float`: not an infinity, not a NaN. -/
def F32.Finite : F32 → Prop
  | F32.fin q => |q| ≤ FLT_MAX
  | _ => False

/-- The sum of two `float`s. -/
def F32.add : F32 → F32 → F32
  | F32.fin a, F32.fin b => rnd (a + b)
  | F32.nan, _ => F32.nan
  | _, F32.nan => F32.nan
  | F32.pinf, F32.ninf => F32.nan
  | F32.ninf, F32.pinf => F32.nan
  | F32.pinf, _ => F32.pinf
  | F32.ninf, _ => F32.ninf
  | F32.fin _, F32.pinf => F32.pinf
  | F32.fin _, F32.ninf => F32.ninf

/-- The difference of two `float`s. -/
def F32.sub : F32 → F32 → F32
  | F32.fin a, F32.fin b => rnd (a - b)
  | F32.nan, _ => F32.nan
  | _, F32.nan => F32.nan
  | F32.pinf, F32.pinf => F32.nan
  | F32.ninf, F32.ninf => F32.nan
  | F32.pinf, _ => F32.pinf
  | F32.ninf, _ => F32.ninf
  | F32.fin _, F32.pinf => F32.ninf
  | F32.fin _, F32.ninf => F32.pinf

/-- The infinity or NaN that is the product of a finite value and +infinity. -/
def F32.timesInf (a : ℚ) : F32 :=
  if a = 0 then F32.nan else if 0 < a then F32.pinf else F32.ninf

/-- The product of two `float`s. -/
def F32.mul : F32 → F32 → F32
  | F32.fin a, F32.fin b => rnd (a * b)
  | F32.nan, _ => F32.nan
  | _, F32.nan => F32.nan
  | F32.fin a, F32.pinf => F32.timesInf a
  | F32.fin a, F32.ninf => F32.timesInf (-a)
  | F32.pinf, F32.fin b => F32.timesInf b
  | F32.ninf, F32.fin b => F32.timesInf (-b)
  | F32.pinf, F32.pinf => F32.pinf
  | F32.ninf, F32.ninf => F32.pinf
  | F32.pinf, F32.ninf => F32.ninf
  | F32.ninf, F32.pinf => F32.ninf

/-- The comparison `a < b` of two `float`s: false when either is a NaN. -/
def F32.lt : F32 → F32 → Bool
  | F32.fin a, F32.fin b => decide (a < b)
  | F32.fin _, F32.pinf => true
  | F32.ninf, F32.fin _ => true
  | F32.ninf, F32.pinf => true
  | _, _ => false

/-- The comparison `a <= b` of two `float`s: false when either is a NaN. -/
def F32.le : F32 → F32 → Bool
  | F32.fin a, F32.fin b => decide (a ≤ b)
  | F32.fin _, F32.pinf => true
  | F32.ninf, F32.fin _ => true
  | F32.ninf, F32.pinf => true
  | F32.pinf, F32.pinf => true
  | F32.ninf, F32.ninf => true
  | _, _ => false

/-- Conversion of an `unsigned int` to `float`. -/
def F32.ofNat (n : Nat) : F32 :=
  rnd (n : ℚ)

/-- Conversion of an `int` to `float`. -/
def F32.ofInt (i : ℤ) : F32 :=
  rnd (i : ℚ)

/-! ## Integers -/

/-- Return code `NVML_SUCCESS` of `nvml.h`. -/
def NVML_SUCCESS : Nat := 0

/-- Exit status `EXIT_FAILURE` of `stdlib.h`. -/
def EXIT_FAILURE : Nat := 1

/-- The least `int`. -/
def INT_MIN : ℤ := -2 ^ 31

/-- The greatest `int`. -/
def INT_MAX : ℤ := 2 ^ 31 - 1

/-- A 32-bit two's complement result. -/
def wrapInt (i : ℤ) : ℤ :=
  (i + 2 ^ 31) % 2 ^ 32 - 2 ^ 31

/-- The integer part of `x`: the fractional part is discarded (truncation
toward zero). -/
def trunc (x : ℚ) : ℤ :=
  if 0 ≤ x then ⌊x⌋ else ⌈x⌉

/-- Conversion of a `float` to `int`: the fractional part is discarded; a NaN,
an infinity or a value out of range gives `INT_MIN`. -/
def floatToInt : F32 → ℤ
  | F32.fin x => if INT_MIN ≤ trunc x ∧ trunc x ≤ INT_MAX then trunc x else INT_MIN
  | _ => INT_MIN

/-- The function `int abs(int)` of `stdlib.h`, the `abs` called on line 157. -/
def abs (i : ℤ) : ℤ :=
  if i < 0 then wrapInt (-i) else i

/-- Conversion of a `float` to `unsigned char` (line 159, `pwm = newpwm`). -/
def floatToUChar (x : F32) : Nat :=
  (floatToInt x).toNat

/-! ## The control law (lines 151-157) -/

/-- Lines 151-152: `error = temp - target; newpwm = 96 + k * error`. -/
def rawpwm (k target : F32) (temp : Nat) : F32 :=
  let error : F32 := F32.sub (F32.ofNat temp) target
  F32.add (F32.ofInt 96) (F32.mul k error)

/-- Lines 153-156: the two clamp tests, in the order of the source. -/
def clamp (newpwm : F32) : F32 :=
  let newpwm := if F32.lt (F32.ofInt 255) newpwm then F32.ofInt 255 else newpwm
  if F32.lt newpwm (F32.ofInt 0) then F32.ofInt 0 else newpwm

/-- The value of `newpwm` when line 157 is reached. -/
def newpwm (k target : F32) (temp : Nat) : F32 :=
  clamp (rawpwm k target temp)

/-- Line 157: the test `abs(newpwm - pwm) > 1`. The argument of `abs` is a
`float`, converted to `int` for the call. -/
def changes (newpwm : F32) (pwm : Nat) : Bool :=
  decide (abs (floatToInt (F32.sub newpwm (F32.ofInt (pwm : ℤ)))) > 1)

/-! ## The loop (lines 143-165) -/

/-- The configuration fixed before the loop starts. -/
structure Config where
  target : F32
  k : F32
  waittime : Int
  devidx : Int
deriving DecidableEq

/-- The defaults of lines 50-53 for a given device index. -/
def defaultConfig (devidx : Int) : Config :=
  { target := F32.fin 35, k := F32.fin 25, waittime := 10, devidx := devidx }

/-- The calls made by the loop, as they appear in the source. -/
inductive Event where
  | getTemperature : Event
  | syslogErr : Event
  | syslogInfo (temp pwm : Nat) (newpwm : F32) : Event
  | write (byte : Nat) : Event
  | fsync : Event
  | sleep (seconds : Int) : Event
  | nvmlShutdown : Event
  | close : Event
  | exit (status : Nat) : Event
deriving DecidableEq

/-- Whether the process is still in the loop or has called `exit`. -/
inductive Status where
  | running : Status
  | exited (status : Nat) : Status
deriving DecidableEq

/-- The state of the loop: the variable `pwm`, the process status and the
calls made so far. -/
structure LoopState where
  pwm : Nat
  status : Status
  trace : List Event
deriving DecidableEq

/-- What the outside world answers during one iteration. -/
structure Env where
  err : Nat
  temp : Nat
  writeRet : Int
  fsyncRet : Int
deriving DecidableEq

/-- Line 52: `unsigned char pwm = 64`, on entry to the loop. -/
def initState : LoopState :=
  { pwm := 64, status := Status.running, trace := [] }

/-- One pass through the body of `for (;;)`, lines 144-164. The return values
of `write` and `fsync` are discarded, as in the source. -/
def iteration (cfg : Config) (s : LoopState) (env : Env) : LoopState :=
  if env.err ≠ NVML_SUCCESS then
    { pwm := s.pwm
      status := Status.exited EXIT_FAILURE
      trace := s.trace ++ [Event.getTemperature, Event.syslogErr, Event.nvmlShutdown,
                           Event.close, Event.exit EXIT_FAILURE] }
  else
    let np := newpwm cfg.k cfg.target env.temp
    if changes np s.pwm then
      let pwm := floatToUChar np
      let _ := env.writeRet
      let _ := env.fsyncRet
      { pwm := pwm
        status := Status.running
        trace := s.trace ++ [Event.getTemperature, Event.syslogInfo env.temp s.pwm np,
                             Event.write pwm, Event.fsync, Event.sleep cfg.waittime] }
    else
      { pwm := s.pwm
        status := Status.running
        trace := s.trace ++ [Event.getTemperature, Event.sleep cfg.waittime] }

/-- The loop over a finite sequence of answers of the outside world: a process
that has exited takes no further step. -/
def run (cfg : Config) (s : LoopState) : List Env → LoopState
  | [] => s
  | env :: rest =>
    match s.status with
    | Status.running => run cfg (iteration cfg s env) rest
    | Status.exited _ => s

/-- A successful reading `temp`, with `write` and `fsync` returning `w` and `f`. -/
def okEnv (temp : Nat) (w f : Int) : Env :=
  { err := NVML_SUCCESS, temp := temp, writeRet := w, fsyncRet := f }

/-- The bytes written to the control port, oldest first. -/
def written : List Event → List Nat
  | [] => []
  | Event.write b :: rest => b :: written rest
  | _ :: rest => written rest

/-- The invariant of the loop: `pwm` is a byte, every byte written is a byte,
and the last byte written (if any; else the initial 64) is the stored `pwm`. -/
def Inv (s : LoopState) : Prop :=
  s.pwm ≤ 255 ∧ (∀ b ∈ written s.trace, b ≤ 255) ∧
    ((written s.trace).getLast? = some s.pwm ∨ (written s.trace = [] ∧ s.pwm = 64))

/-- The three cases of `rnd`. -/
theorem rnd_def (x : ℚ) :
    rnd x = if 2 ^ 128 ≤ rndVal x then F32.pinf
      else if rndVal x ≤ -2 ^ 128 then F32.ninf else F32.fin (rndVal x) := rfl

/-! ## Facts about `roundNE` -/

theorem roundNE_cases (y : ℚ) :
    (roundNE y = ⌊y⌋ ∧ y - ⌊y⌋ ≤ 1 / 2) ∨ (roundNE y = ⌊y⌋ + 1 ∧ 1 / 2 ≤ y - ⌊y⌋) := by
  unfold roundNE
  split_ifs with h1 h2 h3
  · left; exact ⟨rfl, h1.le⟩
  · right; exact ⟨rfl, h2.le⟩
  · left; exact ⟨rfl, not_lt.mp h2⟩
  · right; exact ⟨rfl, not_lt.mp h1⟩

theorem roundNE_intCast (n : ℤ) : roundNE (n : ℚ) = n := by
  unfold roundNE
  simp

theorem roundNE_le {y : ℚ} {n : ℤ} (h : y ≤ n) : roundNE y ≤ n := by
  have hf : ⌊y⌋ ≤ n := Int.floor_le_floor h |>.trans (by simp)
  rcases roundNE_cases y with ⟨h1, _⟩ | ⟨h1, h2⟩
  · rw [h1]; exact hf
  · rw [h1]
    by_contra hc
    have hn : ⌊y⌋ = n := by omega
    rw [hn] at h2
    linarith

theorem le_roundNE {y : ℚ} {n : ℤ} (h : (n : ℚ) ≤ y) : n ≤ roundNE y := by
  have hf : n ≤ ⌊y⌋ := Int.le_floor.mpr h
  rcases roundNE_cases y with ⟨h1, _⟩ | ⟨h1, _⟩ <;> rw [h1] <;> omega

theorem roundNE_le_of_lt_half {y : ℚ} {n : ℤ} (h : y < n + 1 / 2) : roundNE y ≤ n := by
  rcases roundNE_cases y with ⟨h1, _⟩ | ⟨h1, h2⟩
  · rw [h1]
    have : ⌊y⌋ < n + 1 := Int.floor_lt.mpr (by push_cast; linarith)
    omega
  · rw [h1]
    have : ⌊y⌋ < n := Int.floor_lt.mpr (by
      have := Int.lt_floor_add_one y
      by_contra hc
      push_neg at hc
      have h3 : (n : ℚ) ≤ ⌊y⌋ := by exact_mod_cast Int.le_floor.mpr hc
      linarith)
    omega

theorem roundNE_mono {y z : ℚ} (h : y ≤ z) : roundNE y ≤ roundNE z := by
  by_contra hc
  push_neg at hc
  have hfl : ⌊y⌋ ≤ ⌊z⌋ := Int.floor_le_floor h
  rcases roundNE_cases y with ⟨h1, h1'⟩ | ⟨h1, h1'⟩
  · rcases roundNE_cases z with ⟨h2, _⟩ | ⟨h2, _⟩ <;> omega
  · rcases roundNE_cases z with ⟨h2, h2'⟩ | ⟨h2, _⟩
    · have hfe : ⌊y⌋ = ⌊z⌋ := by omega
      have hyz : y = z := by
        rw [hfe] at h1'
        linarith
      rw [hyz] at hc
      exact lt_irrefl _ hc
    · omega

theorem roundNE_neg (y : ℚ) : roundNE (-y) = -roundNE y := by
  by_cases hy : (⌊y⌋ : ℚ) = y
  · rw [← hy, ← Int.cast_neg, roundNE_intCast, roundNE_intCast]
  · have hlt : (⌊y⌋ : ℚ) < y := lt_of_le_of_ne (Int.floor_le y) hy
    have hfn : ⌊-y⌋ = -⌊y⌋ - 1 := by
      rw [Int.floor_eq_iff]
      have := Int.lt_floor_add_one y
      push_cast
      constructor <;> linarith
    unfold roundNE
    rw [hfn]
    push_cast
    have hmod : (-⌊y⌋ - 1) % 2 = 0 ↔ ¬ ⌊y⌋ % 2 = 0 := by omega
    split_ifs <;> first | omega | linarith

/-! ## Facts about the unit in the last place and about rounding -/

theorem two_zpow_pos (e : ℤ) : (0 : ℚ) < 2 ^ e :=
  zpow_pos (by norm_num) e

theorem two_zpow_add (a b : ℤ) : (2 : ℚ) ^ (a + b) = 2 ^ a * 2 ^ b :=
  zpow_add₀ (by norm_num) a b

theorem two_zpow_le {a b : ℤ} (h : a ≤ b) : (2 : ℚ) ^ a ≤ 2 ^ b :=
  zpow_le_zpow_right₀ (by norm_num) h

theorem ulpExp_neg (x : ℚ) : ulpExp (-x) = ulpExp x := by
  simp [ulpExp, abs_neg]

theorem ulpExp_ge (x : ℚ) : -126 ≤ ulpExp x + 23 := by
  unfold ulpExp
  omega

theorem abs_lt_zpow_ulpExp (x : ℚ) : |x| < 2 ^ (ulpExp x + 24) := by
  have h := Int.lt_zpow_succ_log_self (b := 2) (by norm_num) |x|
  have h2 : Int.log 2 |x| + 1 ≤ ulpExp x + 24 := by
    unfold ulpExp
    omega
  calc |x| < (2 : ℚ) ^ (Int.log 2 |x| + 1) := by simpa using h
    _ ≤ 2 ^ (ulpExp x + 24) := two_zpow_le h2

theorem zpow_ulpExp_le {x : ℚ} (hx : x ≠ 0) (h : -126 < ulpExp x + 23) :
    (2 : ℚ) ^ (ulpExp x + 23) ≤ |x| := by
  have hlog : ulpExp x + 23 = Int.log 2 |x| := by
    unfold ulpExp at h ⊢
    omega
  rw [hlog]
  have h := Int.zpow_log_le_self (b := 2) (r := |x|) (by norm_num) (abs_pos.mpr hx)
  simpa using h

theorem ulpExp_mono {x y : ℚ} (hx : x ≠ 0) (h : |x| ≤ |y|) : ulpExp x ≤ ulpExp y := by
  have hl : Int.log 2 |x| ≤ Int.log 2 |y| := Int.log_mono_right (abs_pos.mpr hx) h
  unfold ulpExp
  omega

theorem rndVal_neg (x : ℚ) : rndVal (-x) = -rndVal x := by
  unfold rndVal
  rw [ulpExp_neg, neg_div, roundNE_neg]
  push_cast
  ring

theorem rndVal_le_of_le_mul {x : ℚ} {n : ℤ} (h : x ≤ n * 2 ^ ulpExp x) :
    rndVal x ≤ n * 2 ^ ulpExp x := by
  have hp := two_zpow_pos (ulpExp x)
  have h1 : x / 2 ^ ulpExp x ≤ n := (div_le_iff₀ hp).mpr h
  have h2 : (roundNE (x / 2 ^ ulpExp x) : ℚ) ≤ n := by exact_mod_cast roundNE_le h1
  exact mul_le_mul_of_nonneg_right h2 hp.le

theorem mul_le_rndVal {x : ℚ} {n : ℤ} (h : (n : ℚ) * 2 ^ ulpExp x ≤ x) :
    (n : ℚ) * 2 ^ ulpExp x ≤ rndVal x := by
  have hp := two_zpow_pos (ulpExp x)
  have h1 : (n : ℚ) ≤ x / 2 ^ ulpExp x := (le_div_iff₀ hp).mpr h
  have h2 : (n : ℚ) ≤ roundNE (x / 2 ^ ulpExp x) := by exact_mod_cast le_roundNE h1
  exact mul_le_mul_of_nonneg_right h2 hp.le

theorem rndVal_nonneg {x : ℚ} (h : 0 ≤ x) : 0 ≤ rndVal x := by
  have := mul_le_rndVal (x := x) (n := 0) (by simpa using h)
  simpa using this

theorem rndVal_nonpos {x : ℚ} (h : x ≤ 0) : rndVal x ≤ 0 := by
  have := rndVal_le_of_le_mul (x := x) (n := 0) (by simpa using h)
  simpa using this

theorem rndVal_le_binade (x : ℚ) : rndVal x ≤ 2 ^ (ulpExp x + 24) := by
  have h1 : (2 : ℚ) ^ (ulpExp x + 24) = ((2 ^ 24 : ℤ) : ℚ) * 2 ^ ulpExp x := by
    rw [add_comm, two_zpow_add]
    norm_num
  rw [h1]
  apply rndVal_le_of_le_mul
  rw [← h1]
  exact (le_abs_self x).trans (abs_lt_zpow_ulpExp x).le

theorem binade_le_rndVal {x : ℚ} (hx : 0 < x) (h : -126 < ulpExp x + 23) :
    (2 : ℚ) ^ (ulpExp x + 23) ≤ rndVal x := by
  have h1 : (2 : ℚ) ^ (ulpExp x + 23) = ((2 ^ 23 : ℤ) : ℚ) * 2 ^ ulpExp x := by
    rw [add_comm, two_zpow_add]
    norm_num
  rw [h1]
  apply mul_le_rndVal
  rw [← h1]
  have := zpow_ulpExp_le hx.ne' h
  rwa [abs_of_pos hx] at this

theorem rndVal_mono_of_pos {x y : ℚ} (hx : 0 < x) (h : x ≤ y) : rndVal x ≤ rndVal y := by
  have hy : 0 < y := lt_of_lt_of_le hx h
  have hu : ulpExp x ≤ ulpExp y :=
    ulpExp_mono hx.ne' (by rwa [abs_of_pos hx, abs_of_pos hy])
  rcases eq_or_lt_of_le hu with he | hlt
  · unfold rndVal
    rw [he]
    have hp := two_zpow_pos (ulpExp y)
    have h1 : x / 2 ^ ulpExp y ≤ y / 2 ^ ulpExp y := div_le_div_of_nonneg_right h hp.le
    have h2 : (roundNE (x / 2 ^ ulpExp y) : ℚ) ≤ roundNE (y / 2 ^ ulpExp y) := by
      exact_mod_cast roundNE_mono h1
    exact mul_le_mul_of_nonneg_right h2 hp.le
  · have hge := ulpExp_ge x
    calc rndVal x ≤ 2 ^ (ulpExp x + 24) := rndVal_le_binade x
      _ ≤ 2 ^ (ulpExp y + 23) := two_zpow_le (by omega)
      _ ≤ rndVal y := binade_le_rndVal hy (by omega)

/-- Rounding to nearest is monotone. -/
theorem rndVal_mono {x y : ℚ} (h : x ≤ y) : rndVal x ≤ rndVal y := by
  rcases lt_or_le 0 x with hx | hx
  · exact rndVal_mono_of_pos hx h
  · rcases le_or_lt 0 y with hy | hy
    · exact (rndVal_nonpos hx).trans (rndVal_nonneg hy)
    · have h1 : rndVal (-y) ≤ rndVal (-x) :=
        rndVal_mono_of_pos (by linarith) (by linarith)
      rw [rndVal_neg, rndVal_neg] at h1
      linarith

/-- A multiple of the unit in the last place is not changed by rounding. -/
theorem rndVal_of_multiple {x : ℚ} {j : ℤ} (h : x = j * 2 ^ ulpExp x) : rndVal x = x := by
  have hp := two_zpow_pos (ulpExp x)
  have h1 : x / 2 ^ ulpExp x = j := by
    rw [div_eq_iff hp.ne']
    exact h
  unfold rndVal
  rw [h1, roundNE_intCast, ← h]

/-- A value with a significand of at most 24 bits and an exponent of at least
-149 is not changed by rounding. -/
theorem rndVal_dyadic (m : ℤ) (n : ℕ) (hm : |m| < 2 ^ 24) (hn : n ≤ 149) :
    rndVal ((m : ℚ) / 2 ^ n) = (m : ℚ) / 2 ^ n := by
  rcases eq_or_ne m 0 with h0 | h0
  · simp [h0, rndVal, roundNE]
  · have hpn : (0 : ℚ) < 2 ^ n := by positivity
    have hx0 : (m : ℚ) / 2 ^ n ≠ 0 := by
      apply div_ne_zero _ hpn.ne'
      exact_mod_cast h0
    have hmq : |(m : ℚ)| < 2 ^ 24 := by exact_mod_cast hm
    have habs : |(m : ℚ) / 2 ^ n| < 2 ^ ((24 : ℤ) - n) := by
      rw [abs_div, abs_of_pos hpn, zpow_sub₀ (by norm_num), zpow_natCast]
      have h24 : (2 : ℚ) ^ (24 : ℤ) = 2 ^ 24 := by norm_num
      rw [h24]
      exact div_lt_div_of_pos_right hmq hpn
    have hlog : Int.log 2 |(m : ℚ) / 2 ^ n| < (24 : ℤ) - n := by
      have := (Int.lt_zpow_iff_log_lt (b := 2) (by norm_num) (abs_pos.mpr hx0)).mp
        (by simpa using habs)
      exact this
    have hu : ulpExp ((m : ℚ) / 2 ^ n) ≤ -(n : ℤ) := by
      unfold ulpExp
      omega
    obtain ⟨d, hd⟩ : ∃ d : ℕ, -(n : ℤ) = ulpExp ((m : ℚ) / 2 ^ n) + d :=
      ⟨(-(n : ℤ) - ulpExp ((m : ℚ) / 2 ^ n)).toNat, by omega⟩
    have h2 : (2 : ℚ) ^ (-(n : ℤ)) = 2 ^ ulpExp ((m : ℚ) / 2 ^ n) * 2 ^ d := by
      rw [hd, two_zpow_add, zpow_natCast]
    have h3 : (m : ℚ) / 2 ^ n = m * 2 ^ (-(n : ℤ)) := by
      rw [zpow_neg, zpow_natCast, div_eq_mul_inv]
    have h4 : (m : ℚ) / 2 ^ n
        = ((m * 2 ^ d : ℤ) : ℚ) * 2 ^ ulpExp ((m : ℚ) / 2 ^ n) :=
      calc (m : ℚ) / 2 ^ n = m * 2 ^ (-(n : ℤ)) := h3
        _ = m * (2 ^ ulpExp ((m : ℚ) / 2 ^ n) * 2 ^ d) := by rw [h2]
        _ = ((m * 2 ^ d : ℤ) : ℚ) * 2 ^ ulpExp ((m : ℚ) / 2 ^ n) := by
          push_cast
          ring
    exact rndVal_of_multiple h4

theorem rndVal_intCast (i : ℤ) (h : |i| < 2 ^ 24) : rndVal (i : ℚ) = i := by
  have := rndVal_dyadic i 0 h (by norm_num)
  simpa using this

theorem ulpExp_eq {x : ℚ} {e : ℤ} (he : -126 ≤ e) (h1 : (2 : ℚ) ^ e ≤ |x|)
    (h2 : |x| < 2 ^ (e + 1)) : ulpExp x = e - 23 := by
  have hpos : 0 < |x| := lt_of_lt_of_le (two_zpow_pos e) h1
  have hlo : e ≤ Int.log 2 |x| :=
    (Int.zpow_le_iff_le_log (b := 2) (by norm_num) hpos).mp (by simpa using h1)
  have hhi : Int.log 2 |x| < e + 1 :=
    (Int.lt_zpow_iff_log_lt (b := 2) (by norm_num) hpos).mp (by simpa using h2)
  unfold ulpExp
  omega

theorem roundNE_eq {y : ℚ} {n : ℤ} (h1 : (n : ℚ) ≤ y) (h2 : y < n + 1 / 2) : roundNE y = n :=
  le_antisymm (roundNE_le_of_lt_half h2) (le_roundNE h1)

theorem roundNE_eq_succ {y : ℚ} {n : ℤ} (h1 : (n : ℚ) + 1 / 2 < y) (h2 : y ≤ n + 1) :
    roundNE y = n + 1 := by
  have h := roundNE_eq (y := -y) (n := -(n + 1)) (by push_cast; linarith) (by push_cast; linarith)
  rw [roundNE_neg] at h
  omega

/-- Rounding computed from the binade of `x`. -/
theorem rndVal_eq_of_binade {x : ℚ} {e j : ℤ} (he : -126 ≤ e) (h1 : (2 : ℚ) ^ e ≤ |x|)
    (h2 : |x| < 2 ^ (e + 1)) (hj : roundNE (x / 2 ^ (e - 23)) = j) :
    rndVal x = j * 2 ^ (e - 23) := by
  unfold rndVal
  rw [ulpExp_eq he h1 h2, hj]

theorem rndVal_two_pow_32 : rndVal (2 ^ 32) = 2 ^ 32 := by
  have h := rndVal_eq_of_binade (x := 2 ^ 32) (e := 32) (j := 2 ^ 23) (by norm_num)
    (by norm_num) (by norm_num)
    (by
      have : (2 : ℚ) ^ 32 / 2 ^ ((32 : ℤ) - 23) = ((2 ^ 23 : ℤ) : ℚ) := by norm_num
      rw [this, roundNE_intCast])
  rw [h]
  norm_num

theorem rndVal_FLT_MAX : rndVal FLT_MAX = FLT_MAX := by
  have h := rndVal_eq_of_binade (x := FLT_MAX) (e := 127) (j := 2 ^ 24 - 1) (by norm_num)
    (by norm_num [FLT_MAX]) (by norm_num [FLT_MAX])
    (by
      have : FLT_MAX / 2 ^ ((127 : ℤ) - 23) = ((2 ^ 24 - 1 : ℤ) : ℚ) := by norm_num [FLT_MAX]
      rw [this, roundNE_intCast])
  rw [h]
  norm_num [FLT_MAX]

/-- The sum of the largest `float` and 2^32 rounds to the largest `float`. -/
theorem rndVal_FLT_MAX_add : rndVal (FLT_MAX + 2 ^ 32) = FLT_MAX := by
  have h := rndVal_eq_of_binade (x := FLT_MAX + 2 ^ 32) (e := 127) (j := 2 ^ 24 - 1)
    (by norm_num) (by norm_num [FLT_MAX]) (by norm_num [FLT_MAX])
    (roundNE_eq (by norm_num [FLT_MAX]) (by norm_num [FLT_MAX]))
  rw [h]
  norm_num [FLT_MAX]

/-! ## Facts about `rnd` and the operations -/

theorem rnd_of_abs_lt {x : ℚ} (h : |rndVal x| < 2 ^ 128) : rnd x = F32.fin (rndVal x) := by
  obtain ⟨h1, h2⟩ := abs_lt.mp h
  rw [rnd_def, if_neg (not_le.mpr h2), if_neg (not_le.mpr h1)]

theorem rnd_exact {x : ℚ} (h : rndVal x = x) (hx : |x| < 2 ^ 128) : rnd x = F32.fin x := by
  have := rnd_of_abs_lt (x := x) (by rwa [h])
  rwa [h] at this

theorem rnd_intCast (i : ℤ) (h : |i| < 2 ^ 24) : rnd (i : ℚ) = F32.fin i := by
  apply rnd_exact (rndVal_intCast i h)
  have : |(i : ℚ)| < 2 ^ 24 := by exact_mod_cast h
  exact this.trans (by norm_num)

theorem rnd_natCast (n : ℕ) (h : n < 2 ^ 24) : rnd (n : ℚ) = F32.fin n := by
  have := rnd_intCast (n : ℤ) (by
    rw [abs_of_nonneg (by positivity)]
    exact_mod_cast h)
  simpa using this

theorem rnd_dyadic (m : ℤ) (n : ℕ) (hm : |m| < 2 ^ 24) (hn : n ≤ 149) :
    rnd ((m : ℚ) / 2 ^ n) = F32.fin ((m : ℚ) / 2 ^ n) := by
  apply rnd_exact (rndVal_dyadic m n hm hn)
  have hpn : (1 : ℚ) ≤ 2 ^ n := one_le_pow₀ (by norm_num)
  have hmq : |(m : ℚ)| < 2 ^ 24 := by exact_mod_cast hm
  have hp0 : (0 : ℚ) < 2 ^ n := by positivity
  rw [abs_div, abs_of_pos hp0]
  calc |(m : ℚ)| / 2 ^ n ≤ |(m : ℚ)| := div_le_self (abs_nonneg _) hpn
    _ < 2 ^ 128 := hmq.trans (by norm_num)

/-- Rounding stays between two values that rounding does not change. -/
theorem rnd_between {x a b : ℚ} (ha : rndVal a = a) (hb : rndVal b = b)
    (hax : a ≤ x) (hxb : x ≤ b) (ha' : -2 ^ 128 < a) (hb' : b < 2 ^ 128) :
    rnd x = F32.fin (rndVal x) ∧ a ≤ rndVal x ∧ rndVal x ≤ b := by
  have h1 : a ≤ rndVal x := ha ▸ rndVal_mono hax
  have h2 : rndVal x ≤ b := hb ▸ rndVal_mono hxb
  refine ⟨rnd_of_abs_lt ?_, h1, h2⟩
  rw [abs_lt]
  constructor <;> linarith

theorem rnd_ne_nan (x : ℚ) : rnd x ≠ F32.nan := by
  rw [rnd_def]
  split_ifs <;> simp

/-- Rounding is monotone, infinities included. -/
theorem rnd_le_rnd {x y : ℚ} (h : x ≤ y) : F32.le (rnd x) (rnd y) = true := by
  have hm := rndVal_mono h
  rw [rnd_def, rnd_def]
  split_ifs <;> simp [F32.le] <;> linarith

theorem ofInt_small (i : ℤ) (h : |i| < 2 ^ 24) : F32.ofInt i = F32.fin i :=
  rnd_intCast i h

theorem ofInt_pwm {pwm : Nat} (h : pwm ≤ 255) : F32.ofInt (pwm : ℤ) = F32.fin pwm := by
  have := ofInt_small (pwm : ℤ) (by
    rw [abs_of_nonneg (by positivity)]
    omega)
  simpa using this

theorem ofInt_0 : F32.ofInt 0 = F32.fin 0 := by
  simpa using ofInt_small 0 (by norm_num)

theorem ofInt_96 : F32.ofInt 96 = F32.fin 96 := by
  simpa using ofInt_small 96 (by norm_num)

theorem ofInt_255 : F32.ofInt 255 = F32.fin 255 := by
  simpa using ofInt_small 255 (by norm_num)

theorem ofNat_small (n : Nat) (h : n < 2 ^ 24) : F32.ofNat n = F32.fin n :=
  rnd_natCast n h

/-- An `unsigned int` converts to a finite `float` between 0 and 2^32. -/
theorem ofNat_fin {n : Nat} (h : n < 2 ^ 32) :
    F32.ofNat n = F32.fin (rndVal n) ∧ 0 ≤ rndVal (n : ℚ) ∧ rndVal (n : ℚ) ≤ 2 ^ 32 := by
  have h0 : rndVal (0 : ℚ) = 0 := by simpa using rndVal_intCast 0 (by norm_num)
  have hn : (n : ℚ) ≤ 2 ^ 32 := by exact_mod_cast h.le
  exact rnd_between h0 rndVal_two_pow_32 (by positivity) hn (by norm_num) (by norm_num)

/-- The difference of an `unsigned int` reading and a finite target is finite. -/
theorem sub_ofNat_fin {n : Nat} {b : ℚ} (h : n < 2 ^ 32) (hb : |b| ≤ FLT_MAX) :
    F32.sub (F32.ofNat n) (F32.fin b) = F32.fin (rndVal (rndVal n - b)) := by
  obtain ⟨h1, h2, h3⟩ := ofNat_fin h
  obtain ⟨hb1, hb2⟩ := abs_le.mp hb
  have hneg : rndVal (-(FLT_MAX + 2 ^ 32)) = -(FLT_MAX + 2 ^ 32 - 2 ^ 32) := by
    rw [rndVal_neg, rndVal_FLT_MAX_add]
    ring
  have hlo : rndVal (-FLT_MAX) = -FLT_MAX := by rw [rndVal_neg, rndVal_FLT_MAX]
  have hm1 : -FLT_MAX ≤ rndVal (rndVal (n : ℚ) - b) := by
    have := rndVal_mono (x := -FLT_MAX) (y := rndVal (n : ℚ) - b) (by linarith)
    rwa [hlo] at this
  have hm2 : rndVal (rndVal (n : ℚ) - b) ≤ FLT_MAX := by
    have := rndVal_mono (x := rndVal (n : ℚ) - b) (y := FLT_MAX + 2 ^ 32) (by linarith)
    rwa [rndVal_FLT_MAX_add] at this
  rw [h1]
  show rnd (rndVal (n : ℚ) - b) = _
  apply rnd_of_abs_lt
  rw [abs_lt]
  unfold FLT_MAX at hm1 hm2
  constructor <;> norm_num at hm1 hm2 ⊢ <;> linarith

/-! ## Facts about the clamp and the conversions -/

theorem clamp_fin (v : ℚ) :
    clamp (F32.fin v) = F32.fin (if 255 < v then 255 else if v < 0 then 0 else v) := by
  unfold clamp
  simp only [ofInt_255, ofInt_0, F32.lt]
  by_cases h1 : (255 : ℚ) < v
  · simp [h1, F32.lt]
  · by_cases h2 : v < 0
    · simp [h1, h2, F32.lt]
    · simp [h1, h2, F32.lt]

theorem clamp_nan : clamp F32.nan = F32.nan := by
  simp [clamp, ofInt_255, ofInt_0, F32.lt]

theorem clamp_pinf : clamp F32.pinf = F32.fin 255 := by
  simp [clamp, ofInt_255, ofInt_0, F32.lt]

theorem clamp_ninf : clamp F32.ninf = F32.fin 0 := by
  simp [clamp, ofInt_255, ofInt_0, F32.lt]

/-- After the clamp the value is a NaN (when it was one) or lies in [0, 255]. -/
theorem clamp_cases (x : F32) :
    (x = F32.nan ∧ clamp x = F32.nan) ∨ ∃ v : ℚ, clamp x = F32.fin v ∧ 0 ≤ v ∧ v ≤ 255 := by
  cases x with
  | fin v =>
    right
    refine ⟨_, clamp_fin v, ?_, ?_⟩ <;> split_ifs <;> linarith
  | pinf => right; exact ⟨255, clamp_pinf, by norm_num, by norm_num⟩
  | ninf => right; exact ⟨0, clamp_ninf, by norm_num, by norm_num⟩
  | nan => left; exact ⟨rfl, clamp_nan⟩

theorem clamp_of_mem {v : ℚ} (h0 : 0 ≤ v) (h1 : v ≤ 255) : clamp (F32.fin v) = F32.fin v := by
  rw [clamp_fin, if_neg (not_lt.mpr h1), if_neg (not_lt.mpr h0)]

theorem clamp_mono {x y : F32} (h : F32.le x y = true) : F32.le (clamp x) (clamp y) = true := by
  rcases clamp_cases x with ⟨hx, _⟩ | ⟨v, hv, hv0, hv1⟩
  · rw [hx] at h
    cases y <;> simp [F32.le] at h
  · rcases clamp_cases y with ⟨hy, _⟩ | ⟨w, hw, hw0, hw1⟩
    · rw [hy] at h
      cases x <;> simp [F32.le] at h
    · rw [hv, hw]
      simp only [F32.le, decide_eq_true_eq]
      cases x with
      | nan => simp [clamp_nan] at hv
      | pinf =>
        cases y with
        | pinf =>
          rw [clamp_pinf] at hv hw
          rw [F32.fin.injEq] at hv hw
          rw [← hv, ← hw]
        | fin b => simp [F32.le] at h
        | ninf => simp [F32.le] at h
        | nan => simp [F32.le] at h
      | ninf =>
        rw [clamp_ninf, F32.fin.injEq] at hv
        rw [← hv]
        exact hw0
      | fin a =>
        cases y with
        | pinf =>
          rw [clamp_pinf, F32.fin.injEq] at hw
          rw [← hw]
          exact hv1
        | fin b =>
          simp only [F32.le, decide_eq_true_eq] at h
          rw [clamp_fin, F32.fin.injEq] at hv hw
          rw [← hv, ← hw]
          split_ifs <;> linarith
        | ninf => simp [F32.le] at h
        | nan => simp [F32.le] at h

theorem trunc_of_nonneg {x : ℚ} (h : 0 ≤ x) : trunc x = ⌊x⌋ := by
  simp [trunc, h]

theorem trunc_of_neg {x : ℚ} (h : x < 0) : trunc x = ⌈x⌉ := by
  simp [trunc, not_le.mpr h]

/-- Dropping the fractional part leaves more than 1 exactly when the value is
at least 2 in absolute value. -/
theorem one_lt_abs_trunc_iff (x : ℚ) : 1 < |trunc x| ↔ 2 ≤ |x| := by
  rcases le_or_lt 0 x with h | h
  · rw [trunc_of_nonneg h, abs_of_nonneg h, abs_of_nonneg (Int.floor_nonneg.mpr h)]
    constructor
    · intro hx
      have h2 : (2 : ℤ) ≤ ⌊x⌋ := by omega
      have h3 := Int.le_floor.mp h2
      exact_mod_cast h3
    · intro hx
      have h2 : (2 : ℤ) ≤ ⌊x⌋ := Int.le_floor.mpr (by exact_mod_cast hx)
      omega
  · have h0 : ⌈x⌉ ≤ 0 := Int.ceil_le.mpr (by exact_mod_cast h.le)
    rw [trunc_of_neg h, abs_of_neg h, abs_of_nonpos h0]
    constructor
    · intro hx
      have h2 : ⌈x⌉ ≤ (-2 : ℤ) := by omega
      have h3 := Int.ceil_le.mp h2
      push_cast at h3
      linarith
    · intro hx
      have h2 : ⌈x⌉ ≤ (-2 : ℤ) := Int.ceil_le.mpr (by push_cast; linarith)
      omega

theorem abs_trunc_le {x : ℚ} {n : ℤ} (h : |x| ≤ n) : |trunc x| ≤ n := by
  obtain ⟨h1, h2⟩ := abs_le.mp h
  rw [abs_le]
  rcases le_or_lt 0 x with hx | hx
  · rw [trunc_of_nonneg hx]
    have h0 := Int.floor_nonneg.mpr hx
    have h3 : ⌊x⌋ ≤ n := Int.floor_le_floor h2 |>.trans (by simp)
    omega
  · rw [trunc_of_neg hx]
    have h0 : ⌈x⌉ ≤ 0 := Int.ceil_le.mpr (by exact_mod_cast hx.le)
    have h3 : -n ≤ ⌈x⌉ := by
      have h4 : ((-n : ℤ) : ℚ) ≤ x := by push_cast; linarith
      have h5 := Int.ceil_le_ceil h4
      rwa [Int.ceil_intCast] at h5
    omega

theorem abs_eq_of_small {i : ℤ} (h : |i| ≤ 510) : abs i = |i| := by
  obtain ⟨h1, h2⟩ := abs_le.mp h
  unfold abs wrapInt
  split_ifs with hi
  · rw [abs_of_neg hi]
    omega
  · rw [abs_of_nonneg (not_lt.mp hi)]

theorem floatToInt_of_small {r : ℚ} (h : |r| ≤ 510) : floatToInt (F32.fin r) = trunc r := by
  have ht := abs_trunc_le (x := r) (n := 510) (by exact_mod_cast h)
  obtain ⟨h1, h2⟩ := abs_le.mp ht
  show (if INT_MIN ≤ trunc r ∧ trunc r ≤ INT_MAX then trunc r else INT_MIN) = trunc r
  rw [if_pos]
  unfold INT_MIN INT_MAX
  constructor <;> omega

theorem abs_INT_MIN : abs INT_MIN = INT_MIN := by
  decide

/-- A NaN never passes the test of line 157. -/
theorem changes_nan (pwm : Nat) : changes F32.nan pwm = false := by
  unfold changes
  have h : F32.sub F32.nan (F32.ofInt (pwm : ℤ)) = F32.nan := by
    cases F32.ofInt (pwm : ℤ) <;> rfl
  rw [h]
  decide

/-- The difference taken on line 157, for a clamped value and a byte. -/
theorem sub_pwm {v : ℚ} {pwm : Nat} (h0 : 0 ≤ v) (h1 : v ≤ 255) (hp : pwm ≤ 255) :
    F32.sub (F32.fin v) (F32.ofInt (pwm : ℤ)) = F32.fin (rndVal (v - pwm)) ∧
      |rndVal (v - pwm)| ≤ 510 := by
  have hpq : (pwm : ℚ) ≤ 255 := by exact_mod_cast hp
  have hpq0 : (0 : ℚ) ≤ pwm := by positivity
  have ha : rndVal ((-510 : ℤ) : ℚ) = ((-510 : ℤ) : ℚ) := rndVal_intCast _ (by norm_num)
  have hb : rndVal ((510 : ℤ) : ℚ) = ((510 : ℤ) : ℚ) := rndVal_intCast _ (by norm_num)
  obtain ⟨h2, h3, h4⟩ := rnd_between (x := v - pwm) ha hb (by push_cast; linarith)
    (by push_cast; linarith) (by norm_num) (by norm_num)
  rw [ofInt_pwm hp]
  refine ⟨h2, ?_⟩
  rw [abs_le]
  push_cast at h3 h4
  constructor <;> linarith

/-- The test of line 157 on a clamped value: it succeeds exactly when the
rounded difference is at least 2 in absolute value. -/
theorem changes_fin {v : ℚ} {pwm : Nat} (h0 : 0 ≤ v) (h1 : v ≤ 255) (hp : pwm ≤ 255) :
    changes (F32.fin v) pwm = true ↔ 2 ≤ |rndVal (v - pwm)| := by
  obtain ⟨hs, hr⟩ := sub_pwm h0 h1 hp
  unfold changes
  rw [decide_eq_true_iff, hs, floatToInt_of_small hr, abs_eq_of_small, gt_iff_lt,
    one_lt_abs_trunc_iff]
  exact (abs_trunc_le (n := 510) (by exact_mod_cast hr))

theorem rndVal_abs_le_of_abs_le {x : ℚ} {c : ℤ} (hc : |c| < 2 ^ 24) (h : |x| ≤ c) :
    |rndVal x| ≤ c := by
  obtain ⟨h1, h2⟩ := abs_le.mp h
  have hc0 : (0 : ℚ) ≤ c := (abs_nonneg x).trans h
  have hcc : rndVal (c : ℚ) = c := rndVal_intCast c hc
  have hcn : rndVal (-(c : ℚ)) = -c := by rw [rndVal_neg, hcc]
  rw [abs_le]
  constructor
  · rw [← hcn]; exact rndVal_mono h1
  · rw [← hcc]; exact rndVal_mono h2

theorem le_abs_rndVal_of_le_abs {x : ℚ} {c : ℤ} (hc : |c| < 2 ^ 24) (h : (c : ℚ) ≤ |x|) :
    (c : ℚ) ≤ |rndVal x| := by
  have hcc : rndVal (c : ℚ) = c := rndVal_intCast c hc
  have hcn : rndVal (-(c : ℚ)) = -c := by rw [rndVal_neg, hcc]
  rcases le_abs.mp h with h1 | h1
  · have := rndVal_mono h1
    rw [hcc] at this
    exact this.trans (le_abs_self _)
  · have := rndVal_mono (x := x) (y := -(c : ℚ)) (by linarith)
    rw [hcn] at this
    exact le_trans (by linarith) (neg_le_abs _)

theorem newpwm_eq (k target : F32) (temp : Nat) :
    newpwm k target temp
      = clamp (F32.add (F32.ofInt 96) (F32.mul k (F32.sub (F32.ofNat temp) target))) := rfl

theorem rawpwm_eq (k target : F32) (temp : Nat) :
    rawpwm k target temp
      = F32.add (F32.ofInt 96) (F32.mul k (F32.sub (F32.ofNat temp) target)) := rfl

theorem add_96_ne_nan {p : F32} (h : p ≠ F32.nan) : F32.add (F32.ofInt 96) p ≠ F32.nan := by
  rw [ofInt_96]
  cases p with
  | fin q => exact rnd_ne_nan _
  | pinf => simp [F32.add]
  | ninf => simp [F32.add]
  | nan => exact absurd rfl h

/-- With a finite gain and a finite target the raw command is never a NaN. -/
theorem rawpwm_ne_nan {a b : ℚ} {n : Nat} (hn : n < 2 ^ 32) (hb : |b| ≤ FLT_MAX) :
    rawpwm (F32.fin a) (F32.fin b) n ≠ F32.nan := by
  rw [rawpwm_eq, sub_ofNat_fin hn hb]
  exact add_96_ne_nan (rnd_ne_nan _)

theorem newpwm_cases (k target : F32) (temp : Nat) :
    newpwm k target temp = F32.nan ∨
      ∃ v : ℚ, newpwm k target temp = F32.fin v ∧ 0 ≤ v ∧ v ≤ 255 := by
  rcases clamp_cases (rawpwm k target temp) with ⟨_, h⟩ | h
  · left; exact h
  · right; exact h

theorem floatToUChar_fin {v : ℚ} (h0 : 0 ≤ v) (h1 : v ≤ 255) :
    floatToUChar (F32.fin v) = (⌊v⌋).toNat ∧ ((floatToUChar (F32.fin v) : Nat) : ℤ) = ⌊v⌋ ∧
      floatToUChar (F32.fin v) ≤ 255 := by
  have habs : |v| ≤ 510 := by
    rw [abs_of_nonneg h0]
    linarith
  have hf0 : 0 ≤ ⌊v⌋ := Int.floor_nonneg.mpr h0
  have hf1 : ⌊v⌋ ≤ 255 := by
    have : ⌊v⌋ ≤ ⌊(255 : ℚ)⌋ := Int.floor_le_floor h1
    simpa using this
  have he : floatToUChar (F32.fin v) = (⌊v⌋).toNat := by
    unfold floatToUChar
    rw [floatToInt_of_small habs, trunc_of_nonneg h0]
  rw [he]
  refine ⟨rfl, Int.toNat_of_nonneg hf0, ?_⟩
  omega

theorem floatToUChar_newpwm_le (k target : F32) (temp : Nat) :
    floatToUChar (newpwm k target temp) ≤ 255 := by
  rcases newpwm_cases k target temp with h | ⟨v, h, h0, h1⟩
  · rw [h]
    decide
  · rw [h]
    exact (floatToUChar_fin h0 h1).2.2

/-! ## Values computed without rounding error -/

theorem rnd_of_eq_int {x : ℚ} (i : ℤ) (h : x = i) (hi : |i| < 2 ^ 24) : rnd x = F32.fin x := by
  rw [h]
  exact rnd_intCast i hi

theorem rnd_of_eq_half {x : ℚ} (i : ℤ) (h : x = i / 2) (hi : |i| < 2 ^ 24) :
    rnd x = F32.fin x := by
  rw [h]
  simpa using rnd_dyadic i 1 hi (by norm_num)

/-- The raw command when no step of lines 151-152 rounds. -/
theorem rawpwm_of_exact {a b : ℚ} {n : Nat} (hn : rnd (n : ℚ) = F32.fin n)
    (h1 : rnd ((n : ℚ) - b) = F32.fin (n - b))
    (h2 : rnd (a * ((n : ℚ) - b)) = F32.fin (a * (n - b)))
    (h3 : rnd (96 + a * ((n : ℚ) - b)) = F32.fin (96 + a * (n - b))) :
    rawpwm (F32.fin a) (F32.fin b) n = F32.fin (96 + a * (n - b)) := by
  rw [rawpwm_eq, ofInt_96]
  show F32.add (F32.fin 96) (F32.mul (F32.fin a) (F32.sub (rnd (n : ℚ)) (F32.fin b))) = _
  rw [hn]
  show F32.add (F32.fin 96) (F32.mul (F32.fin a) (rnd ((n : ℚ) - b))) = _
  rw [h1]
  show F32.add (F32.fin 96) (rnd (a * ((n : ℚ) - b))) = _
  rw [h2]
  show rnd (96 + a * ((n : ℚ) - b)) = _
  exact h3

theorem rawpwm_default_35 : rawpwm (F32.fin 25) (F32.fin 35) 35 = F32.fin 96 := by
  have h := rawpwm_of_exact (a := 25) (b := 35) (n := 35)
    (rnd_of_eq_int 35 (by norm_num) (by norm_num)) (rnd_of_eq_int 0 (by norm_num) (by norm_num))
    (rnd_of_eq_int 0 (by norm_num) (by norm_num)) (rnd_of_eq_int 96 (by norm_num) (by norm_num))
  rw [h]
  norm_num

theorem rawpwm_default_39 : rawpwm (F32.fin 25) (F32.fin 35) 39 = F32.fin 196 := by
  have h := rawpwm_of_exact (a := 25) (b := 35) (n := 39)
    (rnd_of_eq_int 39 (by norm_num) (by norm_num)) (rnd_of_eq_int 4 (by norm_num) (by norm_num))
    (rnd_of_eq_int 100 (by norm_num) (by norm_num))
    (rnd_of_eq_int 196 (by norm_num) (by norm_num))
  rw [h]
  norm_num

theorem rawpwm_default_30 : rawpwm (F32.fin 25) (F32.fin 35) 30 = F32.fin (-29) := by
  have h := rawpwm_of_exact (a := 25) (b := 35) (n := 30)
    (rnd_of_eq_int 30 (by norm_num) (by norm_num)) (rnd_of_eq_int (-5) (by norm_num) (by norm_num))
    (rnd_of_eq_int (-125) (by norm_num) (by norm_num))
    (rnd_of_eq_int (-29) (by norm_num) (by norm_num))
  rw [h]
  norm_num

theorem rawpwm_default_200 : rawpwm (F32.fin 25) (F32.fin 35) 200 = F32.fin 4221 := by
  have h := rawpwm_of_exact (a := 25) (b := 35) (n := 200)
    (rnd_of_eq_int 200 (by norm_num) (by norm_num))
    (rnd_of_eq_int 165 (by norm_num) (by norm_num))
    (rnd_of_eq_int 4125 (by norm_num) (by norm_num))
    (rnd_of_eq_int 4221 (by norm_num) (by norm_num))
  rw [h]
  norm_num

theorem rawpwm_three_halves_35 : rawpwm (F32.fin (3 / 2)) (F32.fin 35) 35 = F32.fin 96 := by
  have h := rawpwm_of_exact (a := 3 / 2) (b := 35) (n := 35)
    (rnd_of_eq_int 35 (by norm_num) (by norm_num)) (rnd_of_eq_int 0 (by norm_num) (by norm_num))
    (rnd_of_eq_int 0 (by norm_num) (by norm_num)) (rnd_of_eq_int 96 (by norm_num) (by norm_num))
  rw [h]
  norm_num

theorem rawpwm_three_halves_36 :
    rawpwm (F32.fin (3 / 2)) (F32.fin 35) 36 = F32.fin (195 / 2) := by
  have h := rawpwm_of_exact (a := 3 / 2) (b := 35) (n := 36)
    (rnd_of_eq_int 36 (by norm_num) (by norm_num)) (rnd_of_eq_int 1 (by norm_num) (by norm_num))
    (rnd_of_eq_half 3 (by norm_num) (by norm_num))
    (rnd_of_eq_half 195 (by norm_num) (by norm_num))
  rw [h]
  norm_num

theorem rawpwm_minus_one_35 : rawpwm (F32.fin (-1)) (F32.fin 35) 35 = F32.fin 96 := by
  have h := rawpwm_of_exact (a := -1) (b := 35) (n := 35)
    (rnd_of_eq_int 35 (by norm_num) (by norm_num)) (rnd_of_eq_int 0 (by norm_num) (by norm_num))
    (rnd_of_eq_int 0 (by norm_num) (by norm_num)) (rnd_of_eq_int 96 (by norm_num) (by norm_num))
  rw [h]
  norm_num

theorem rawpwm_minus_one_36 : rawpwm (F32.fin (-1)) (F32.fin 35) 36 = F32.fin 95 := by
  have h := rawpwm_of_exact (a := -1) (b := 35) (n := 36)
    (rnd_of_eq_int 36 (by norm_num) (by norm_num)) (rnd_of_eq_int 1 (by norm_num) (by norm_num))
    (rnd_of_eq_int (-1) (by norm_num) (by norm_num))
    (rnd_of_eq_int 95 (by norm_num) (by norm_num))
  rw [h]
  norm_num

theorem newpwm_default_35 : newpwm (F32.fin 25) (F32.fin 35) 35 = F32.fin 96 := by
  rw [newpwm, rawpwm_default_35, clamp_of_mem (by norm_num) (by norm_num)]

theorem newpwm_default_39 : newpwm (F32.fin 25) (F32.fin 35) 39 = F32.fin 196 := by
  rw [newpwm, rawpwm_default_39, clamp_of_mem (by norm_num) (by norm_num)]

theorem newpwm_default_30 : newpwm (F32.fin 25) (F32.fin 35) 30 = F32.fin 0 := by
  rw [newpwm, rawpwm_default_30, clamp_fin]
  norm_num

theorem newpwm_default_200 : newpwm (F32.fin 25) (F32.fin 35) 200 = F32.fin 255 := by
  rw [newpwm, rawpwm_default_200, clamp_fin]
  norm_num

theorem newpwm_three_halves_35 : newpwm (F32.fin (3 / 2)) (F32.fin 35) 35 = F32.fin 96 := by
  rw [newpwm, rawpwm_three_halves_35, clamp_of_mem (by norm_num) (by norm_num)]

theorem newpwm_three_halves_36 :
    newpwm (F32.fin (3 / 2)) (F32.fin 35) 36 = F32.fin (195 / 2) := by
  rw [newpwm, rawpwm_three_halves_36, clamp_of_mem (by norm_num) (by norm_num)]

/-- The test of line 157 when the difference is a small integer or half-integer. -/
theorem changes_of_exact {v : ℚ} {p : Nat} (h0 : 0 ≤ v) (h1 : v ≤ 255) (hp : p ≤ 255)
    (hr : rndVal (v - p) = v - p) :
    changes (F32.fin v) p = true ↔ 2 ≤ |v - (p : ℚ)| := by
  rw [changes_fin h0 h1 hp, hr]

theorem floatToUChar_196 : floatToUChar (F32.fin 196) = 196 := by
  have h := (floatToUChar_fin (v := 196) (by norm_num) (by norm_num)).1
  rw [h]
  have : ⌊(196 : ℚ)⌋ = 196 := Int.floor_ofNat 196
  rw [this]
  rfl

theorem floatToUChar_96 : floatToUChar (F32.fin 96) = 96 := by
  have h := (floatToUChar_fin (v := 96) (by norm_num) (by norm_num)).1
  rw [h]
  have : ⌊(96 : ℚ)⌋ = 96 := Int.floor_ofNat 96
  rw [this]
  rfl

theorem floatToUChar_zero : floatToUChar (F32.fin 0) = 0 := by
  have h := (floatToUChar_fin (v := 0) (by norm_num) (by norm_num)).1
  rw [h]
  simp

/-! ## Facts about one iteration and about the loop -/

theorem written_append (xs ys : List Event) : written (xs ++ ys) = written xs ++ written ys := by
  induction xs with
  | nil => rfl
  | cons e es ih => cases e <;> simp [written, ih]

theorem iteration_of_changes (cfg : Config) (s : LoopState) (env : Env)
    (herr : env.err = NVML_SUCCESS)
    (h : changes (newpwm cfg.k cfg.target env.temp) s.pwm = true) :
    iteration cfg s env =
      { pwm := floatToUChar (newpwm cfg.k cfg.target env.temp)
        status := Status.running
        trace := s.trace ++ [Event.getTemperature,
          Event.syslogInfo env.temp s.pwm (newpwm cfg.k cfg.target env.temp),
          Event.write (floatToUChar (newpwm cfg.k cfg.target env.temp)),
          Event.fsync, Event.sleep cfg.waittime] } := by
  simp [iteration, herr, h]

theorem iteration_of_not_changes (cfg : Config) (s : LoopState) (env : Env)
    (herr : env.err = NVML_SUCCESS)
    (h : changes (newpwm cfg.k cfg.target env.temp) s.pwm = false) :
    iteration cfg s env =
      { pwm := s.pwm
        status := Status.running
        trace := s.trace ++ [Event.getTemperature, Event.sleep cfg.waittime] } := by
  simp [iteration, herr, h]

theorem iteration_of_err (cfg : Config) (s : LoopState) (env : Env)
    (herr : env.err ≠ NVML_SUCCESS) :
    iteration cfg s env =
      { pwm := s.pwm
        status := Status.exited EXIT_FAILURE
        trace := s.trace ++ [Event.getTemperature, Event.syslogErr, Event.nvmlShutdown,
                             Event.close, Event.exit EXIT_FAILURE] } := by
  simp [iteration, herr]

theorem iteration_status_of_ok (cfg : Config) (s : LoopState) (env : Env)
    (herr : env.err = NVML_SUCCESS) : (iteration cfg s env).status = Status.running := by
  cases h : changes (newpwm cfg.k cfg.target env.temp) s.pwm
  · rw [iteration_of_not_changes cfg s env herr h]
  · rw [iteration_of_changes cfg s env herr h]

theorem run_of_exited {cfg : Config} {s : LoopState} {n : Nat}
    (h : s.status = Status.exited n) (envs : List Env) : run cfg s envs = s := by
  cases envs with
  | nil => rfl
  | cons e es => simp [run, h]

theorem run_cons_running {cfg : Config} {s : LoopState} (h : s.status = Status.running)
    (env : Env) (rest : List Env) :
    run cfg s (env :: rest) = run cfg (iteration cfg s env) rest := by
  simp [run, h]

theorem run_append (cfg : Config) (s : LoopState) (xs ys : List Env) :
    run cfg s (xs ++ ys) = run cfg (run cfg s xs) ys := by
  induction xs generalizing s with
  | nil => rfl
  | cons e es ih =>
    cases h : s.status with
    | running => simp [run, h, ih]
    | exited n =>
      have h1 : run cfg s (e :: es) = s := run_of_exited h _
      have h2 : run cfg s (e :: es ++ ys) = s := run_of_exited h _
      rw [h1, h2, run_of_exited h]

theorem run_status_of_ok (cfg : Config) (s : LoopState) (envs : List Env)
    (hs : s.status = Status.running) (hok : ∀ e ∈ envs, e.err = NVML_SUCCESS) :
    (run cfg s envs).status = Status.running := by
  induction envs generalizing s with
  | nil => exact hs
  | cons e es ih =>
    rw [run_cons_running hs]
    exact ih _ (iteration_status_of_ok cfg s e (hok e (List.mem_cons_self _ _)))
      (fun x hx => hok x (List.mem_cons_of_mem _ hx))

theorem inv_initState : Inv initState := by
  simp [Inv, initState, written]

theorem inv_iteration (cfg : Config) (s : LoopState) (env : Env) (h : Inv s) :
    Inv (iteration cfg s env) := by
  obtain ⟨h1, h2, h3⟩ := h
  by_cases herr : env.err = NVML_SUCCESS
  · cases hc : changes (newpwm cfg.k cfg.target env.temp) s.pwm
    · rw [iteration_of_not_changes cfg _ env herr hc]
      simpa [Inv, written_append, written] using ⟨h1, h2, h3⟩
    · rw [iteration_of_changes cfg _ env herr hc]
      have hb := floatToUChar_newpwm_le cfg.k cfg.target env.temp
      refine ⟨hb, ?_, ?_⟩
      · intro b hbm
        simp only [written_append, written, List.mem_append, List.mem_singleton] at hbm
        rcases hbm with hbm | hbm
        · exact h2 b hbm
        · rw [hbm]; exact hb
      · left
        simp [written_append, written]
  · rw [iteration_of_err cfg _ env herr]
    simpa [Inv, written_append, written] using ⟨h1, h2, h3⟩

theorem inv_run (cfg : Config) (s : LoopState) (envs : List Env) (h : Inv s) :
    Inv (run cfg s envs) := by
  induction envs generalizing s with
  | nil => exact h
  | cons e es ih =>
    cases hs : s.status with
    | running =>
      rw [run_cons_running hs]
      exact ih _ (inv_iteration cfg s e h)
    | exited n =>
      rw [run_of_exited hs]
      exact h

theorem newpwm_fin_bounds {k target : F32} {temp : Nat} {v : ℚ}
    (h : newpwm k target temp = F32.fin v) : 0 ≤ v ∧ v ≤ 255 := by
  rcases newpwm_cases k target temp with hn | ⟨u, hu, h0, h1⟩
  · rw [h] at hn
    exact absurd hn (by simp)
  · rw [h, F32.fin.injEq] at hu
    rw [hu]
    exact ⟨h0, h1⟩

theorem not_changes_of_abs_le_one {v : ℚ} {pwm : Nat} (h0 : 0 ≤ v) (h1 : v ≤ 255)
    (hp : pwm ≤ 255) (h : |v - (pwm : ℚ)| ≤ 1) : changes (F32.fin v) pwm = false := by
  cases hc : changes (F32.fin v) pwm
  · rfl
  · have h2 := (changes_fin h0 h1 hp).mp hc
    have h3 := rndVal_abs_le_of_abs_le (x := v - pwm) (c := 1) (by norm_num) (by exact_mod_cast h)
    push_cast at h3
    linarith

theorem abs_lt_two_of_not_changes {v : ℚ} {pwm : Nat} (h0 : 0 ≤ v) (h1 : v ≤ 255)
    (hp : pwm ≤ 255) (h : changes (F32.fin v) pwm = false) : |v - (pwm : ℚ)| < 2 := by
  by_contra hc
  push_neg at hc
  have h2 := le_abs_rndVal_of_le_abs (x := v - pwm) (c := 2) (by norm_num) (by exact_mod_cast hc)
  have h3 := (changes_fin h0 h1 hp).mpr (by exact_mod_cast h2)
  rw [h] at h3
  exact absurd h3 (by simp)

theorem le_pinf_of_ne_nan {x : F32} (h : x ≠ F32.nan) : F32.le x F32.pinf = true := by
  cases x <;> simp [F32.le] at h ⊢

theorem ninf_le_of_ne_nan {x : F32} (h : x ≠ F32.nan) : F32.le F32.ninf x = true := by
  cases x <;> simp [F32.le] at h ⊢

theorem add_96_mono {p q : F32} (h : F32.le p q = true) :
    F32.le (F32.add (F32.ofInt 96) p) (F32.add (F32.ofInt 96) q) = true := by
  rw [ofInt_96]
  cases p with
  | nan => simp [F32.le] at h
  | fin x =>
    cases q with
    | nan => simp [F32.le] at h
    | fin y =>
      simp only [F32.le, decide_eq_true_eq] at h
      exact rnd_le_rnd (by linarith)
    | pinf => exact le_pinf_of_ne_nan (rnd_ne_nan _)
    | ninf => simp [F32.le] at h
  | pinf =>
    cases q with
    | pinf => rfl
    | fin y => simp [F32.le] at h
    | ninf => simp [F32.le] at h
    | nan => simp [F32.le] at h
  | ninf =>
    cases q with
    | nan => simp [F32.le] at h
    | fin y => exact ninf_le_of_ne_nan (rnd_ne_nan _)
    | pinf => rfl
    | ninf => rfl

/-! ## Rounding at work: two inputs on which lines 151-152 round -/

theorem roundNE_tie_even {n : ℤ} (h : n % 2 = 0) : roundNE ((n : ℚ) + 1 / 2) = n := by
  have hf : ⌊(n : ℚ) + 1 / 2⌋ = n := by
    rw [Int.floor_eq_iff]
    constructor <;> linarith
  unfold roundNE
  rw [hf]
  have h1 : ¬ ((n : ℚ) + 1 / 2 - n < 1 / 2) := by
    intro hlt
    linarith
  have h2 : ¬ ((1 : ℚ) / 2 < (n : ℚ) + 1 / 2 - n) := by
    intro hlt
    linarith
  rw [if_neg h1, if_neg h2, if_pos h]

/-- The reading 2^24 + 1 is halfway between two `float`s and converts to 2^24:
with target 2^24 and gain 1 the command is the baseline 96, not 97. -/
theorem newpwm_at_large_reading :
    F32.ofNat 16777217 = F32.fin 16777216 ∧
    newpwm (F32.fin 1) (F32.fin 16777216) 16777217 = F32.fin 96 := by
  have hv : rndVal ((16777217 : ℕ) : ℚ) = 16777216 := by
    have h := rndVal_eq_of_binade (x := ((16777217 : ℕ) : ℚ)) (e := 24) (j := 8388608)
      (by norm_num) (by norm_num) (by norm_num)
      (by
        have h1 : ((16777217 : ℕ) : ℚ) / 2 ^ ((24 : ℤ) - 23) = ((8388608 : ℤ) : ℚ) + 1 / 2 := by
          norm_num
        rw [h1]
        exact roundNE_tie_even (by norm_num))
    rw [h]
    norm_num
  have hc : F32.ofNat 16777217 = F32.fin 16777216 := by
    have h := rnd_of_abs_lt (x := ((16777217 : ℕ) : ℚ)) (by rw [hv]; norm_num)
    rw [hv] at h
    exact h
  refine ⟨hc, ?_⟩
  rw [newpwm_eq, hc, ofInt_96]
  show clamp (F32.add (F32.fin 96) (F32.mul (F32.fin 1) (rnd (16777216 - 16777216)))) = _
  rw [rnd_of_eq_int 0 (by norm_num) (by norm_num)]
  show clamp (F32.add (F32.fin 96) (rnd (1 * (16777216 - 16777216)))) = _
  rw [rnd_of_eq_int 0 (by norm_num) (by norm_num)]
  show clamp (rnd (96 + 1 * (16777216 - 16777216))) = _
  rw [rnd_of_eq_int 96 (by norm_num) (by norm_num), clamp_of_mem (by norm_num) (by norm_num)]
  norm_num

/-- The gain 0.7 is stored as 11744051 / 2^24; at target 35 and reading 45 the
product with the error 10 rounds to 7, so the command is 103 although the
exact value of the formula is below 103. -/
theorem newpwm_at_gain_0_7 :
    newpwm (F32.fin (11744051 / 16777216)) (F32.fin 35) 45 = F32.fin 103 ∧
    (96 : ℚ) + 11744051 / 16777216 * (45 - 35) < 103 := by
  have hm : rndVal ((11744051 : ℚ) / 16777216 * (45 - 35)) = 7 := by
    have h := rndVal_eq_of_binade (x := (11744051 : ℚ) / 16777216 * (45 - 35)) (e := 2)
      (j := 14680063 + 1) (by norm_num) (by norm_num [abs_of_nonneg])
      (by norm_num [abs_of_nonneg])
      (roundNE_eq_succ (by norm_num) (by norm_num))
    rw [h]
    norm_num
  have hr : rnd ((11744051 : ℚ) / 16777216 * (45 - 35)) = F32.fin 7 := by
    have h := rnd_of_abs_lt (x := (11744051 : ℚ) / 16777216 * (45 - 35)) (by rw [hm]; norm_num)
    rw [hm] at h
    exact h
  refine ⟨?_, by norm_num⟩
  rw [newpwm_eq, ofInt_96, ofNat_small 45 (by norm_num)]
  show clamp (F32.add (F32.fin 96)
    (F32.mul (F32.fin (11744051 / 16777216)) (rnd (((45 : ℕ) : ℚ) - 35)))) = _
  rw [rnd_of_eq_int 10 (by norm_num) (by norm_num)]
  show clamp (F32.add (F32.fin 96) (rnd (11744051 / 16777216 * (((45 : ℕ) : ℚ) - 35)))) = _
  have hcast : (11744051 : ℚ) / 16777216 * (((45 : ℕ) : ℚ) - 35)
      = (11744051 : ℚ) / 16777216 * (45 - 35) := by norm_num
  rw [hcast, hr]
  show clamp (rnd (96 + 7)) = _
  rw [rnd_of_eq_int 103 (by norm_num) (by norm_num), clamp_of_mem (by norm_num) (by norm_num)]
  norm_num

/-! ## The control law -/

/-- C3 as stated is false: a NaN gain, or an infinite gain at a reading equal
to the target, makes `newpwm` a NaN, which passes both clamp tests unchanged
and is not in [0, 255]. -/
theorem saturation_fails_for_nan :
    newpwm F32.nan (F32.fin 35) 200 = F32.nan ∧
    newpwm F32.pinf (F32.fin 35) 35 = F32.nan ∧
    ¬ (∀ (k target : F32) (temp : Nat),
      ∃ v : ℚ, newpwm k target temp = F32.fin v ∧ 0 ≤ v ∧ v ≤ 255) := by
  have h1 : newpwm F32.nan (F32.fin 35) 200 = F32.nan := by
    rw [newpwm_eq, ofInt_96, ofNat_small 200 (by norm_num)]
    show clamp (F32.add (F32.fin 96) (F32.mul F32.nan (rnd (((200 : ℕ) : ℚ) - 35)))) = _
    rw [rnd_of_eq_int 165 (by norm_num) (by norm_num)]
    exact clamp_nan
  have h2 : newpwm F32.pinf (F32.fin 35) 35 = F32.nan := by
    rw [newpwm_eq, ofInt_96, ofNat_small 35 (by norm_num)]
    show clamp (F32.add (F32.fin 96) (F32.mul F32.pinf (rnd (((35 : ℕ) : ℚ) - 35)))) = _
    have h0 : ((35 : ℕ) : ℚ) - 35 = 0 := by norm_num
    rw [rnd_of_eq_int 0 (by norm_num) (by norm_num), h0]
    show clamp (F32.add (F32.fin 96) (F32.timesInf 0)) = _
    rw [F32.timesInf, if_pos rfl]
    exact clamp_nan
  refine ⟨h1, h2, ?_⟩
  intro h
  obtain ⟨v, hv, _⟩ := h F32.nan (F32.fin 35) 200
  rw [h1] at hv
  exact absurd hv (by simp)

/-- C3, amended (saturation): for every reading, target and gain the value of
`newpwm` after the two clamp tests is a NaN or lies in [0, 255]; it is not a
NaN, so it lies in [0, 255], for every `unsigned int` reading, every finite
target and every finite gain (positive, zero or negative). With temp = 200,
target = 35, k = 25 the raw value is 4221 and the clamped value is exactly
255. -/
theorem saturation (k target : F32) (temp : Nat) :
    (newpwm k target temp = F32.nan ∨
      ∃ v : ℚ, newpwm k target temp = F32.fin v ∧ 0 ≤ v ∧ v ≤ 255) ∧
    (k.Finite → target.Finite → temp < 2 ^ 32 →
      ∃ v : ℚ, clamp (F32.add (F32.ofInt 96) (F32.mul k (F32.sub (F32.ofNat temp) target)))
        = F32.fin v ∧ 0 ≤ v ∧ v ≤ 255) ∧
    rawpwm (F32.fin 25) (F32.fin 35) 200 = F32.fin 4221 ∧
    newpwm (F32.fin 25) (F32.fin 35) 200 = F32.fin 255 := by
  refine ⟨newpwm_cases k target temp, ?_, rawpwm_default_200, newpwm_default_200⟩
  intro hk ht hn
  cases k with
  | fin a =>
    cases target with
    | fin b =>
      rcases clamp_cases (rawpwm (F32.fin a) (F32.fin b) temp) with ⟨hnan, _⟩ | h
      · exact absurd hnan (rawpwm_ne_nan hn ht)
      · exact h
    | pinf => exact absurd ht (by simp [F32.Finite])
    | ninf => exact absurd ht (by simp [F32.Finite])
    | nan => exact absurd ht (by simp [F32.Finite])
  | pinf => exact absurd hk (by simp [F32.Finite])
  | ninf => exact absurd hk (by simp [F32.Finite])
  | nan => exact absurd hk (by simp [F32.Finite])

theorem saturation_witness :
    (F32.fin 25).Finite ∧ (F32.fin 35).Finite ∧ 200 < 2 ^ 32 ∧
    ∃ v : ℚ, clamp (F32.add (F32.ofInt 96)
        (F32.mul (F32.fin 25) (F32.sub (F32.ofNat 200) (F32.fin 35)))) = F32.fin v ∧
      0 ≤ v ∧ v ≤ 255 :=
  ⟨by norm_num [F32.Finite, FLT_MAX], by norm_num [F32.Finite, FLT_MAX], by norm_num,
   (saturation (F32.fin 25) (F32.fin 35) 200).2.1 (by norm_num [F32.Finite, FLT_MAX])
     (by norm_num [F32.Finite, FLT_MAX]) (by norm_num)⟩

/-- C7 as stated is false: with an infinite gain and a reading equal to the
target, line 152 multiplies infinity by zero and the raw command is a NaN, not
96. -/
theorem infinite_gain_breaks_baseline :
    F32.ofNat 35 = F32.fin 35 ∧
    rawpwm F32.pinf (F32.fin 35) 35 = F32.nan ∧
    ¬ (∀ (k target : F32) (temp : Nat), F32.ofNat temp = target →
      rawpwm k target temp = F32.fin 96) := by
  have h1 : F32.ofNat 35 = F32.fin 35 := by
    simpa using ofNat_small 35 (by norm_num)
  have h2 : rawpwm F32.pinf (F32.fin 35) 35 = F32.nan := by
    rw [rawpwm_eq, ofInt_96, ofNat_small 35 (by norm_num)]
    show F32.add (F32.fin 96) (F32.mul F32.pinf (rnd (((35 : ℕ) : ℚ) - 35))) = _
    have h0 : ((35 : ℕ) : ℚ) - 35 = 0 := by norm_num
    rw [rnd_of_eq_int 0 (by norm_num) (by norm_num), h0]
    show F32.add (F32.fin 96) (F32.timesInf 0) = _
    rw [F32.timesInf, if_pos rfl]
    rfl
  refine ⟨h1, h2, ?_⟩
  intro h
  have h3 := h F32.pinf (F32.fin 35) 35 h1
  rw [h2] at h3
  exact absurd h3 (by simp)

/-- C7, amended (zero-error baseline): for every finite gain k, if the sampled
temperature (an `unsigned int`) equals the target then the raw command computed
by the control law is exactly 96, and clamping leaves it at 96, independent of
k. -/
theorem zero_error_baseline (k target : F32) (temp : Nat) (hk : k.Finite)
    (hn : temp < 2 ^ 32) (h : F32.ofNat temp = target) :
    F32.add (F32.ofInt 96) (F32.mul k (F32.sub (F32.ofNat temp) target)) = F32.fin 96 ∧
    rawpwm k target temp = F32.fin 96 ∧ newpwm k target temp = F32.fin 96 := by
  have hr : rawpwm k target temp = F32.fin 96 := by
    cases k with
    | fin a =>
      obtain ⟨hT, _, _⟩ := ofNat_fin hn
      rw [rawpwm_eq, ← h, hT, ofInt_96]
      show F32.add (F32.fin 96) (F32.mul (F32.fin a) (rnd (rndVal (temp : ℚ) - rndVal (temp : ℚ))))
        = _
      rw [rnd_of_eq_int 0 (by simp) (by norm_num), sub_self]
      show F32.add (F32.fin 96) (rnd (a * 0)) = _
      rw [rnd_of_eq_int 0 (by simp) (by norm_num), mul_zero]
      show rnd (96 + 0) = _
      rw [rnd_of_eq_int 96 (by norm_num) (by norm_num)]
      norm_num
    | pinf => exact absurd hk (by simp [F32.Finite])
    | ninf => exact absurd hk (by simp [F32.Finite])
    | nan => exact absurd hk (by simp [F32.Finite])
  refine ⟨hr, hr, ?_⟩
  rw [newpwm, hr]
  exact clamp_of_mem (by norm_num) (by norm_num)

theorem zero_error_baseline_witness :
    (F32.fin (-7)).Finite ∧ 35 < 2 ^ 32 ∧ F32.ofNat 35 = F32.fin 35 ∧
    F32.add (F32.ofInt 96) (F32.mul (F32.fin (-7)) (F32.sub (F32.ofNat 35) (F32.fin 35)))
      = F32.fin 96 ∧
    rawpwm (F32.fin (-7)) (F32.fin 35) 35 = F32.fin 96 ∧
    newpwm (F32.fin (-7)) (F32.fin 35) 35 = F32.fin 96 :=
  ⟨by norm_num [F32.Finite, FLT_MAX], by norm_num, by simpa using ofNat_small 35 (by norm_num),
   zero_error_baseline (F32.fin (-7)) (F32.fin 35) 35 (by norm_num [F32.Finite, FLT_MAX])
     (by norm_num) (by simpa using ofNat_small 35 (by norm_num))⟩

/-- C6 as stated is false: with the gain k = -1 and target 35, the readings
35 ≤ 36 give the raw commands 96 and 95; and with an infinite gain the readings
34 ≤ 35 give minus infinity and a NaN, which are not ordered. -/
theorem negative_gain_reverses_order :
    rawpwm (F32.fin (-1)) (F32.fin 35) 35 = F32.fin 96 ∧
    rawpwm (F32.fin (-1)) (F32.fin 35) 36 = F32.fin 95 ∧
    ¬ (∀ (k target : F32) (t1 t2 : Nat), t1 ≤ t2 →
      F32.le (rawpwm k target t1) (rawpwm k target t2) = true) ∧
    rawpwm F32.pinf (F32.fin 35) 34 = F32.ninf ∧
    rawpwm F32.pinf (F32.fin 35) 35 = F32.nan ∧
    F32.le (rawpwm F32.pinf (F32.fin 35) 34) (rawpwm F32.pinf (F32.fin 35) 35) = false := by
  have hi1 : rawpwm F32.pinf (F32.fin 35) 34 = F32.ninf := by
    rw [rawpwm_eq, ofInt_96, ofNat_small 34 (by norm_num)]
    show F32.add (F32.fin 96) (F32.mul F32.pinf (rnd (((34 : ℕ) : ℚ) - 35))) = _
    have h0 : ((34 : ℕ) : ℚ) - 35 = -1 := by norm_num
    rw [rnd_of_eq_int (-1) (by norm_num) (by norm_num), h0]
    show F32.add (F32.fin 96) (F32.timesInf (-1)) = _
    rw [F32.timesInf, if_neg (by norm_num), if_neg (by norm_num)]
    rfl
  have hi2 : rawpwm F32.pinf (F32.fin 35) 35 = F32.nan := by
    rw [rawpwm_eq, ofInt_96, ofNat_small 35 (by norm_num)]
    show F32.add (F32.fin 96) (F32.mul F32.pinf (rnd (((35 : ℕ) : ℚ) - 35))) = _
    have h0 : ((35 : ℕ) : ℚ) - 35 = 0 := by norm_num
    rw [rnd_of_eq_int 0 (by norm_num) (by norm_num), h0]
    show F32.add (F32.fin 96) (F32.timesInf 0) = _
    rw [F32.timesInf, if_pos rfl]
    rfl
  refine ⟨rawpwm_minus_one_35, rawpwm_minus_one_36, ?_, hi1, hi2, by rw [hi1, hi2]; rfl⟩
  intro h
  have h1 := h (F32.fin (-1)) (F32.fin 35) 35 36 (by norm_num)
  rw [rawpwm_minus_one_35, rawpwm_minus_one_36] at h1
  simp only [F32.le, decide_eq_true_eq] at h1
  norm_num at h1

/-- C6, amended (monotonic response): for every finite gain k ≥ 0 and every
finite target, `unsigned int` readings t1 ≤ t2 give raw commands
raw(t1) ≤ raw(t2), where raw(t) = 96 + k*(t - target), and likewise for the
clamped values. -/
theorem monotonic_response (k target : F32) (t1 t2 : Nat) (hk : k.Finite)
    (hk0 : F32.le (F32.fin 0) k = true) (ht : target.Finite) (h12 : t1 ≤ t2)
    (h2 : t2 < 2 ^ 32) :
    F32.le (F32.add (F32.ofInt 96) (F32.mul k (F32.sub (F32.ofNat t1) target)))
      (F32.add (F32.ofInt 96) (F32.mul k (F32.sub (F32.ofNat t2) target))) = true ∧
    F32.le (rawpwm k target t1) (rawpwm k target t2) = true ∧
    F32.le (newpwm k target t1) (newpwm k target t2) = true := by
  have hr : F32.le (rawpwm k target t1) (rawpwm k target t2) = true := by
    cases k with
    | fin a =>
      cases target with
      | fin b =>
        have ha : 0 ≤ a := by
          simpa [F32.le] using hk0
        have h1 : t1 < 2 ^ 32 := lt_of_le_of_lt h12 h2
        have hq : (t1 : ℚ) ≤ (t2 : ℚ) := by exact_mod_cast h12
        have he : rndVal (rndVal (t1 : ℚ) - b) ≤ rndVal (rndVal (t2 : ℚ) - b) :=
          rndVal_mono (sub_le_sub_right (rndVal_mono hq) b)
        rw [rawpwm_eq, rawpwm_eq, sub_ofNat_fin h1 ht, sub_ofNat_fin h2 ht]
        apply add_96_mono
        show F32.le (rnd (a * rndVal (rndVal (t1 : ℚ) - b)))
          (rnd (a * rndVal (rndVal (t2 : ℚ) - b))) = true
        exact rnd_le_rnd (mul_le_mul_of_nonneg_left he ha)
      | pinf => exact absurd ht (by simp [F32.Finite])
      | ninf => exact absurd ht (by simp [F32.Finite])
      | nan => exact absurd ht (by simp [F32.Finite])
    | pinf => exact absurd hk (by simp [F32.Finite])
    | ninf => exact absurd hk (by simp [F32.Finite])
    | nan => exact absurd hk (by simp [F32.Finite])
  exact ⟨hr, hr, clamp_mono hr⟩

theorem monotonic_response_witness :
    (F32.fin 25).Finite ∧ F32.le (F32.fin 0) (F32.fin 25) = true ∧ (F32.fin 35).Finite ∧
    35 ≤ 39 ∧ 39 < 2 ^ 32 ∧
    F32.le (F32.add (F32.ofInt 96) (F32.mul (F32.fin 25) (F32.sub (F32.ofNat 35) (F32.fin 35))))
      (F32.add (F32.ofInt 96) (F32.mul (F32.fin 25) (F32.sub (F32.ofNat 39) (F32.fin 35))))
      = true ∧
    F32.le (rawpwm (F32.fin 25) (F32.fin 35) 35) (rawpwm (F32.fin 25) (F32.fin 35) 39) = true ∧
    F32.le (newpwm (F32.fin 25) (F32.fin 35) 35) (newpwm (F32.fin 25) (F32.fin 35) 39) = true :=
  ⟨by norm_num [F32.Finite, FLT_MAX], by simp [F32.le], by norm_num [F32.Finite, FLT_MAX],
   by norm_num, by norm_num,
   monotonic_response (F32.fin 25) (F32.fin 35) 35 39 (by norm_num [F32.Finite, FLT_MAX])
     (by simp [F32.le]) (by norm_num [F32.Finite, FLT_MAX]) (by norm_num) (by norm_num)⟩

/-! ## One iteration -/

/-- C1 (deadband suppression): for every reading, target, gain and previous
command `pwm` in 0..255, if the clamped command
newpwm = clamp(96 + k*(temp - target), 0, 255) is within 1 of `pwm` then the
iteration signals no change: `pwm` is kept and the iteration only samples and
sleeps, so that no byte is written and `fsync` is not called. -/
theorem deadband_suppression (cfg : Config) (s : LoopState) (temp : Nat) (w f : Int) (v : ℚ)
    (hp : s.pwm ≤ 255)
    (hv : clamp (F32.add (F32.ofInt 96) (F32.mul cfg.k (F32.sub (F32.ofNat temp) cfg.target)))
      = F32.fin v)
    (h : |v - (s.pwm : ℚ)| ≤ 1) :
    changes (F32.fin v) s.pwm = false ∧
    (iteration cfg s (okEnv temp w f)).pwm = s.pwm ∧
    (iteration cfg s (okEnv temp w f)).trace =
      s.trace ++ [Event.getTemperature, Event.sleep cfg.waittime] ∧
    written (iteration cfg s (okEnv temp w f)).trace = written s.trace := by
  have hn : newpwm cfg.k cfg.target temp = F32.fin v := hv
  obtain ⟨h0, h1⟩ := newpwm_fin_bounds hn
  have hc : changes (F32.fin v) s.pwm = false := not_changes_of_abs_le_one h0 h1 hp h
  have hc' : changes (newpwm cfg.k cfg.target (okEnv temp w f).temp) s.pwm = false := by
    show changes (newpwm cfg.k cfg.target temp) s.pwm = false
    rw [hn]
    exact hc
  have hi := iteration_of_not_changes cfg s (okEnv temp w f) rfl hc'
  refine ⟨hc, ?_, ?_, ?_⟩
  · rw [hi]
  · rw [hi]
  · rw [hi]
    simp [written_append, written]

theorem deadband_suppression_witness :
    (96 : Nat) ≤ 255 ∧
    clamp (F32.add (F32.ofInt 96)
      (F32.mul (F32.fin 25) (F32.sub (F32.ofNat 35) (F32.fin 35)))) = F32.fin 96 ∧
    |(96 : ℚ) - ((96 : Nat) : ℚ)| ≤ 1 ∧
    changes (F32.fin 96) 96 = false ∧
    (iteration (defaultConfig 0) ⟨96, Status.running, []⟩ (okEnv 35 1 0)).pwm = 96 ∧
    (iteration (defaultConfig 0) ⟨96, Status.running, []⟩ (okEnv 35 1 0)).trace =
      [] ++ [Event.getTemperature, Event.sleep 10] ∧
    written (iteration (defaultConfig 0) ⟨96, Status.running, []⟩ (okEnv 35 1 0)).trace =
      written [] :=
  ⟨by norm_num, newpwm_default_35, by norm_num,
   deadband_suppression (defaultConfig 0) ⟨96, Status.running, []⟩ 35 1 0 96 (by norm_num)
     newpwm_default_35 (by norm_num)⟩

/-- C2 fails on the code: with target = 35 and k = 1.5, the first iteration
(temp = 35) writes 96; in the second (temp = 36) the clamped command is 97.5,
which differs from `pwm` = 96 by 1.5 > 1, yet line 157 signals no change:
nothing is written and `pwm` stays 96. -/
theorem deadband_truncates_difference :
    newpwm (F32.fin (3 / 2)) (F32.fin 35) 36 = F32.fin (195 / 2) ∧
    |(195 / 2 : ℚ) - ((96 : Nat) : ℚ)| > 1 ∧
    changes (newpwm (F32.fin (3 / 2)) (F32.fin 35) 36) 96 = false ∧
    iteration ⟨F32.fin 35, F32.fin (3 / 2), 10, 0⟩ ⟨96, Status.running, []⟩ (okEnv 36 1 0) =
      ⟨96, Status.running, [Event.getTemperature, Event.sleep 10]⟩ ∧
    run ⟨F32.fin 35, F32.fin (3 / 2), 10, 0⟩ initState [okEnv 35 1 0, okEnv 36 1 0] =
      ⟨96, Status.running,
        [Event.getTemperature, Event.syslogInfo 35 64 (F32.fin 96), Event.write 96, Event.fsync,
         Event.sleep 10, Event.getTemperature, Event.sleep 10]⟩ := by
  have hc : changes (newpwm (F32.fin (3 / 2)) (F32.fin 35) 36) 96 = false := by
    rw [newpwm_three_halves_36]
    cases hcc : changes (F32.fin (195 / 2)) 96
    · rfl
    · have h1 := (changes_of_exact (v := 195 / 2) (p := 96) (by norm_num) (by norm_num)
        (by norm_num) (by
          have h2 : (195 / 2 : ℚ) - ((96 : ℕ) : ℚ) = ((3 : ℤ) : ℚ) / 2 ^ 1 := by norm_num
          rw [h2]
          exact rndVal_dyadic 3 1 (by norm_num) (by norm_num))).mp hcc
      norm_num [abs_of_nonneg] at h1
  have hn : newpwm (F32.fin (3 / 2)) (F32.fin 35) 35 = F32.fin 96 := newpwm_three_halves_35
  have hc0 : changes (newpwm (F32.fin (3 / 2)) (F32.fin 35) 35) 64 = true := by
    rw [hn]
    apply (changes_of_exact (v := 96) (p := 64) (by norm_num) (by norm_num)
      (by norm_num) (by
        have h2 : (96 : ℚ) - ((64 : ℕ) : ℚ) = ((32 : ℤ) : ℚ) := by norm_num
        rw [h2]
        exact rndVal_intCast 32 (by norm_num))).mpr
    norm_num [abs_of_nonneg]
  refine ⟨newpwm_three_halves_36, ?_, hc, ?_, ?_⟩
  · norm_num [lt_abs]
  · exact iteration_of_not_changes ⟨F32.fin 35, F32.fin (3 / 2), 10, 0⟩
      ⟨96, Status.running, []⟩ (okEnv 36 1 0) rfl hc
  · rw [run_cons_running rfl,
      iteration_of_changes ⟨F32.fin 35, F32.fin (3 / 2), 10, 0⟩ initState (okEnv 35 1 0) rfl hc0]
    show run ⟨F32.fin 35, F32.fin (3 / 2), 10, 0⟩
      (LoopState.mk (floatToUChar (newpwm (F32.fin (3 / 2)) (F32.fin 35) 35)) Status.running
        ([] ++ [Event.getTemperature,
          Event.syslogInfo 35 64 (newpwm (F32.fin (3 / 2)) (F32.fin 35) 35),
          Event.write (floatToUChar (newpwm (F32.fin (3 / 2)) (F32.fin 35) 35)), Event.fsync,
          Event.sleep 10]))
      [okEnv 36 1 0] = _
    rw [hn, floatToUChar_96, run_cons_running rfl]
    exact iteration_of_not_changes ⟨F32.fin 35, F32.fin (3 / 2), 10, 0⟩ _ (okEnv 36 1 0) rfl hc

/-- C4 (truncating conversion): whenever an iteration signals a change, the
clamped command clamp(96 + k*(temp - target), 0, 255) is a number, the new
value of `pwm` is its floor, and the one byte the iteration writes is that
value. -/
theorem applied_command_is_floor (cfg : Config) (s : LoopState) (temp : Nat) (w f : Int)
    (h : changes
      (clamp (F32.add (F32.ofInt 96) (F32.mul cfg.k (F32.sub (F32.ofNat temp) cfg.target))))
      s.pwm = true) :
    ∃ v : ℚ,
      clamp (F32.add (F32.ofInt 96) (F32.mul cfg.k (F32.sub (F32.ofNat temp) cfg.target)))
        = F32.fin v ∧
      ((iteration cfg s (okEnv temp w f)).pwm : ℤ) = ⌊v⌋ ∧
      written (iteration cfg s (okEnv temp w f)).trace =
        written s.trace ++ [(iteration cfg s (okEnv temp w f)).pwm] ∧
      (iteration cfg s (okEnv temp w f)).trace =
        s.trace ++ [Event.getTemperature, Event.syslogInfo temp s.pwm (F32.fin v),
          Event.write (⌊v⌋).toNat, Event.fsync, Event.sleep cfg.waittime] := by
  have hc : changes (newpwm cfg.k cfg.target (okEnv temp w f).temp) s.pwm = true := h
  have hi := iteration_of_changes cfg s (okEnv temp w f) rfl hc
  rcases newpwm_cases cfg.k cfg.target temp with hnan | ⟨v, hv, h0, h1⟩
  · have hc2 : changes (newpwm cfg.k cfg.target temp) s.pwm = true := h
    rw [hnan, changes_nan] at hc2
    exact absurd hc2 (by simp)
  · have hv' : newpwm cfg.k cfg.target (okEnv temp w f).temp = F32.fin v := hv
    obtain ⟨hu1, hu2, _⟩ := floatToUChar_fin h0 h1
    refine ⟨v, hv, ?_, ?_, ?_⟩
    · rw [hi, hv']
      exact hu2
    · rw [hi]
      simp [written_append, written]
    · rw [hi, hv', hu1]
      rfl

theorem applied_command_is_floor_witness :
    changes (clamp (F32.add (F32.ofInt 96)
      (F32.mul (defaultConfig 0).k (F32.sub (F32.ofNat 39) (defaultConfig 0).target)))) 64
      = true ∧
    clamp (F32.add (F32.ofInt 96)
      (F32.mul (defaultConfig 0).k (F32.sub (F32.ofNat 39) (defaultConfig 0).target)))
      = F32.fin 196 ∧
    (iteration (defaultConfig 0) initState (okEnv 39 1 0)).pwm = 196 ∧
    written (iteration (defaultConfig 0) initState (okEnv 39 1 0)).trace = [196] := by
  have hn : clamp (F32.add (F32.ofInt 96)
      (F32.mul (defaultConfig 0).k (F32.sub (F32.ofNat 39) (defaultConfig 0).target)))
      = F32.fin 196 := newpwm_default_39
  have hc : changes (clamp (F32.add (F32.ofInt 96)
      (F32.mul (defaultConfig 0).k (F32.sub (F32.ofNat 39) (defaultConfig 0).target)))) 64
      = true := by
    rw [hn]
    apply (changes_of_exact (v := 196) (p := 64) (by norm_num) (by norm_num)
      (by norm_num) (by
        have h2 : (196 : ℚ) - ((64 : ℕ) : ℚ) = ((132 : ℤ) : ℚ) := by norm_num
        rw [h2]
        exact rndVal_intCast 132 (by norm_num))).mpr
    norm_num [abs_of_nonneg]
  obtain ⟨v, hv, hp, hw, _⟩ := applied_command_is_floor (defaultConfig 0) initState 39 1 0 hc
  have hv196 : v = 196 := by
    rw [hn, F32.fin.injEq] at hv
    exact hv.symm
  have hf : ⌊v⌋ = 196 := by
    rw [hv196]
    exact Int.floor_ofNat 196
  have hp' : (iteration (defaultConfig 0) initState (okEnv 39 1 0)).pwm = 196 := by
    rw [hf] at hp
    exact_mod_cast hp
  refine ⟨hc, hn, hp', ?_⟩
  rw [hw, hp']
  rfl

/-- C10 as stated is false: with a NaN gain the clamped command is a NaN, so
it is not within 2 of the stored command (nothing is written, `pwm` stays
64). -/
theorem nan_gain_breaks_tracking :
    newpwm F32.nan (F32.fin 35) 39 = F32.nan ∧
    iteration ⟨F32.fin 35, F32.nan, 10, 0⟩ initState (okEnv 39 1 0) =
      ⟨64, Status.running, [Event.getTemperature, Event.sleep 10]⟩ ∧
    ¬ (∀ (cfg : Config) (s : LoopState) (temp : Nat) (w f : Int), s.pwm ≤ 255 →
      ∃ v : ℚ, newpwm cfg.k cfg.target temp = F32.fin v ∧
        |v - ((iteration cfg s (okEnv temp w f)).pwm : ℚ)| < 2) := by
  have h1 : newpwm F32.nan (F32.fin 35) 39 = F32.nan := by
    rw [newpwm_eq, ofInt_96, ofNat_small 39 (by norm_num)]
    show clamp (F32.add (F32.fin 96) (F32.mul F32.nan (rnd (((39 : ℕ) : ℚ) - 35)))) = _
    rw [rnd_of_eq_int 4 (by norm_num) (by norm_num)]
    exact clamp_nan
  have hc : changes (newpwm F32.nan (F32.fin 35) 39) 64 = false := by
    rw [h1]
    exact changes_nan 64
  refine ⟨h1, ?_, ?_⟩
  · exact iteration_of_not_changes ⟨F32.fin 35, F32.nan, 10, 0⟩ initState (okEnv 39 1 0) rfl hc
  · intro h
    obtain ⟨v, hv, _⟩ := h ⟨F32.fin 35, F32.nan, 10, 0⟩ initState 39 1 0 (by decide)
    have hv' : newpwm F32.nan (F32.fin 35) 39 = F32.fin v := hv
    rw [h1] at hv'
    exact absurd hv' (by simp)

/-- C10, amended (tracking bound): for every reading, target, gain and previous
command `pwm` in 0..255, whenever the clamped command
newpwm = clamp(96 + k*(temp - target), 0, 255) of a successful iteration is not
a NaN, the command stored after the iteration is within 2 of it, and within
[0, 1) below it when a write happened; and in every case, a NaN included, a
second iteration with the same reading keeps `pwm` and only samples and
sleeps: it writes nothing. -/
theorem tracking_bound (cfg : Config) (s : LoopState) (temp : Nat) (w f w2 f2 : Int)
    (hp : s.pwm ≤ 255) :
    (∀ v : ℚ,
      clamp (F32.add (F32.ofInt 96) (F32.mul cfg.k (F32.sub (F32.ofNat temp) cfg.target)))
        = F32.fin v →
      |v - ((iteration cfg s (okEnv temp w f)).pwm : ℚ)| < 2 ∧
      (changes (F32.fin v) s.pwm = true →
        0 ≤ v - ((iteration cfg s (okEnv temp w f)).pwm : ℚ) ∧
        v - ((iteration cfg s (okEnv temp w f)).pwm : ℚ) < 1)) ∧
    iteration cfg (iteration cfg s (okEnv temp w f)) (okEnv temp w2 f2) =
      { pwm := (iteration cfg s (okEnv temp w f)).pwm
        status := Status.running
        trace := (iteration cfg s (okEnv temp w f)).trace ++
          [Event.getTemperature, Event.sleep cfg.waittime] } := by
  have key : (∀ v : ℚ, newpwm cfg.k cfg.target temp = F32.fin v →
      |v - ((iteration cfg s (okEnv temp w f)).pwm : ℚ)| < 2 ∧
      (changes (F32.fin v) s.pwm = true →
        0 ≤ v - ((iteration cfg s (okEnv temp w f)).pwm : ℚ) ∧
        v - ((iteration cfg s (okEnv temp w f)).pwm : ℚ) < 1)) ∧
      changes (newpwm cfg.k cfg.target temp) (iteration cfg s (okEnv temp w f)).pwm = false := by
    rcases newpwm_cases cfg.k cfg.target temp with hnan | ⟨u, hu, h0, h1⟩
    · constructor
      · intro v hv
        rw [hnan] at hv
        exact absurd hv (by simp)
      · rw [hnan]
        exact changes_nan _
    · cases hc : changes (F32.fin u) s.pwm
      · have hc' : changes (newpwm cfg.k cfg.target (okEnv temp w f).temp) s.pwm = false := by
          show changes (newpwm cfg.k cfg.target temp) s.pwm = false
          rw [hu]
          exact hc
        have hi := iteration_of_not_changes cfg s (okEnv temp w f) rfl hc'
        constructor
        · intro v hv
          rw [hu, F32.fin.injEq] at hv
          rw [← hv, hi]
          refine ⟨abs_lt_two_of_not_changes h0 h1 hp hc, ?_⟩
          intro hcv
          rw [hc] at hcv
          exact absurd hcv (by simp)
        · rw [hi, hu]
          exact hc
      · have hc' : changes (newpwm cfg.k cfg.target (okEnv temp w f).temp) s.pwm = true := by
          show changes (newpwm cfg.k cfg.target temp) s.pwm = true
          rw [hu]
          exact hc
        have hi := iteration_of_changes cfg s (okEnv temp w f) rfl hc'
        have hu' : newpwm cfg.k cfg.target (okEnv temp w f).temp = F32.fin u := hu
        obtain ⟨_, hcast, hle⟩ := floatToUChar_fin h0 h1
        have hpw : (iteration cfg s (okEnv temp w f)).pwm = floatToUChar (F32.fin u) := by
          rw [hi, hu']
        have hq : ((iteration cfg s (okEnv temp w f)).pwm : ℚ) = ((⌊u⌋ : ℤ) : ℚ) := by
          rw [hpw, ← hcast]
          simp
        have hf1 := Int.floor_le u
        have hf2 := Int.lt_floor_add_one u
        constructor
        · intro v hv
          rw [hu, F32.fin.injEq] at hv
          rw [← hv, hq]
          refine ⟨?_, fun _ => ⟨by linarith, by linarith⟩⟩
          rw [abs_lt]
          constructor <;> linarith
        · rw [hu]
          apply not_changes_of_abs_le_one h0 h1 (by rw [hpw]; exact hle)
          rw [hq, abs_le]
          constructor <;> linarith
  refine ⟨key.1, ?_⟩
  exact iteration_of_not_changes cfg (iteration cfg s (okEnv temp w f))
    (okEnv temp w2 f2) rfl key.2

theorem tracking_bound_witness :
    (64 : Nat) ≤ 255 ∧
    (∀ v : ℚ,
      clamp (F32.add (F32.ofInt 96)
        (F32.mul (defaultConfig 0).k (F32.sub (F32.ofNat 39) (defaultConfig 0).target)))
        = F32.fin v →
      |v - ((iteration (defaultConfig 0) initState (okEnv 39 1 0)).pwm : ℚ)| < 2 ∧
      (changes (F32.fin v) initState.pwm = true →
        0 ≤ v - ((iteration (defaultConfig 0) initState (okEnv 39 1 0)).pwm : ℚ) ∧
        v - ((iteration (defaultConfig 0) initState (okEnv 39 1 0)).pwm : ℚ) < 1)) ∧
    iteration (defaultConfig 0) (iteration (defaultConfig 0) initState (okEnv 39 1 0))
        (okEnv 39 1 0) =
      { pwm := (iteration (defaultConfig 0) initState (okEnv 39 1 0)).pwm
        status := Status.running
        trace := (iteration (defaultConfig 0) initState (okEnv 39 1 0)).trace ++
          [Event.getTemperature, Event.sleep (defaultConfig 0).waittime] } :=
  ⟨by norm_num, tracking_bound (defaultConfig 0) initState 39 1 0 1 0 (by decide)⟩

/-! ## The loop -/

/-- C5 (state invariant): from the initial command 64, after any finite
sequence of iterations, `pwm` is at most 255, every byte written so far is at
most 255, the last byte written (if any, else the initial 64) is the stored
`pwm`, and one more iteration either writes nothing and keeps `pwm` or writes
exactly one byte, which is the `pwm` it stores. -/
theorem state_invariant (cfg : Config) (envs : List Env) :
    (run cfg initState envs).pwm ≤ 255 ∧
    (∀ b ∈ written (run cfg initState envs).trace, b ≤ 255) ∧
    ((written (run cfg initState envs).trace).getLast? = some (run cfg initState envs).pwm ∨
      (written (run cfg initState envs).trace = [] ∧ (run cfg initState envs).pwm = 64)) ∧
    (∀ env : Env,
      (written (iteration cfg (run cfg initState envs) env).trace
          = written (run cfg initState envs).trace ∧
        (iteration cfg (run cfg initState envs) env).pwm = (run cfg initState envs).pwm) ∨
      written (iteration cfg (run cfg initState envs) env).trace
          = written (run cfg initState envs).trace
            ++ [(iteration cfg (run cfg initState envs) env).pwm]) := by
  obtain ⟨h1, h2, h3⟩ := inv_run cfg initState envs inv_initState
  refine ⟨h1, h2, h3, ?_⟩
  intro env
  by_cases herr : env.err = NVML_SUCCESS
  · cases hc : changes (newpwm cfg.k cfg.target env.temp) (run cfg initState envs).pwm
    · left
      rw [iteration_of_not_changes cfg _ env herr hc]
      simp [written_append, written]
    · right
      rw [iteration_of_changes cfg _ env herr hc]
      simp [written_append, written]
  · left
    rw [iteration_of_err cfg _ env herr]
    simp [written_append, written]

/-- C9 (fatal sensor failure): if the temperature query succeeds on the first
N iterations and fails on the next one, the loop is still running before that
iteration, and the iteration only logs, shuts the sensor library down, closes
the control port and exits with `EXIT_FAILURE`, which is not 0; `pwm` and the
bytes written are those after the N-th iteration, whatever would have come
later. -/
theorem sensor_failure_halts (cfg : Config) (oks : List Env) (bad : Env) (rest : List Env)
    (hok : ∀ e ∈ oks, e.err = NVML_SUCCESS) (hbad : bad.err ≠ NVML_SUCCESS) :
    (run cfg initState oks).status = Status.running ∧
    run cfg initState (oks ++ bad :: rest) =
      { pwm := (run cfg initState oks).pwm
        status := Status.exited EXIT_FAILURE
        trace := (run cfg initState oks).trace ++
          [Event.getTemperature, Event.syslogErr, Event.nvmlShutdown, Event.close,
           Event.exit EXIT_FAILURE] } ∧
    written (run cfg initState (oks ++ bad :: rest)).trace
      = written (run cfg initState oks).trace ∧
    EXIT_FAILURE ≠ 0 := by
  have hs : (run cfg initState oks).status = Status.running :=
    run_status_of_ok cfg initState oks rfl hok
  have hr : run cfg initState (oks ++ bad :: rest) =
      { pwm := (run cfg initState oks).pwm
        status := Status.exited EXIT_FAILURE
        trace := (run cfg initState oks).trace ++
          [Event.getTemperature, Event.syslogErr, Event.nvmlShutdown, Event.close,
           Event.exit EXIT_FAILURE] } := by
    rw [run_append, run_cons_running hs, iteration_of_err cfg _ bad hbad]
    exact run_of_exited rfl rest
  refine ⟨hs, hr, ?_, by decide⟩
  rw [hr]
  simp [written_append, written]

theorem sensor_failure_halts_witness :
    (∀ e ∈ [okEnv 39 1 0, okEnv 39 1 0], e.err = NVML_SUCCESS) ∧
    (⟨1, 0, 0, 0⟩ : Env).err ≠ NVML_SUCCESS ∧
    (run (defaultConfig 0) initState [okEnv 39 1 0, okEnv 39 1 0]).status = Status.running ∧
    run (defaultConfig 0) initState
        ([okEnv 39 1 0, okEnv 39 1 0] ++ ⟨1, 0, 0, 0⟩ :: [okEnv 80 1 0]) =
      { pwm := (run (defaultConfig 0) initState [okEnv 39 1 0, okEnv 39 1 0]).pwm
        status := Status.exited EXIT_FAILURE
        trace := (run (defaultConfig 0) initState [okEnv 39 1 0, okEnv 39 1 0]).trace ++
          [Event.getTemperature, Event.syslogErr, Event.nvmlShutdown, Event.close,
           Event.exit EXIT_FAILURE] } ∧
    written (run (defaultConfig 0) initState
        ([okEnv 39 1 0, okEnv 39 1 0] ++ ⟨1, 0, 0, 0⟩ :: [okEnv 80 1 0])).trace
      = written (run (defaultConfig 0) initState [okEnv 39 1 0, okEnv 39 1 0]).trace ∧
    EXIT_FAILURE ≠ 0 :=
  ⟨by simp [okEnv], by decide,
   sensor_failure_halts (defaultConfig 0) [okEnv 39 1 0, okEnv 39 1 0] ⟨1, 0, 0, 0⟩
     [okEnv 80 1 0] (by simp [okEnv]) (by decide)⟩

/-- C8 fails on the code: the values returned by `write` and `fsync` never
reach the state, so an iteration whose write fails (both calls return -1)
still ends in the sleep with the loop running, and the next iteration samples
and writes again. -/
theorem write_failure_is_ignored :
    (∀ (cfg : Config) (s : LoopState) (temp : Nat) (w f : Int),
      iteration cfg s (okEnv temp w f) = iteration cfg s (okEnv temp 1 0) ∧
      (iteration cfg s (okEnv temp w f)).status = Status.running) ∧
    iteration (defaultConfig 0) initState (okEnv 39 (-1) (-1)) =
      ⟨196, Status.running,
        [Event.getTemperature, Event.syslogInfo 39 64 (F32.fin 196), Event.write 196,
         Event.fsync, Event.sleep 10]⟩ ∧
    run (defaultConfig 0) initState [okEnv 39 (-1) (-1), okEnv 30 1 0] =
      ⟨0, Status.running,
        [Event.getTemperature, Event.syslogInfo 39 64 (F32.fin 196), Event.write 196,
         Event.fsync, Event.sleep 10,
         Event.getTemperature, Event.syslogInfo 30 196 (F32.fin 0), Event.write 0,
         Event.fsync, Event.sleep 10]⟩ := by
  have hc1 : changes (newpwm (F32.fin 25) (F32.fin 35) 39) 64 = true := by
    rw [newpwm_default_39]
    apply (changes_of_exact (v := 196) (p := 64) (by norm_num) (by norm_num)
      (by norm_num) (by
        have h2 : (196 : ℚ) - ((64 : ℕ) : ℚ) = ((132 : ℤ) : ℚ) := by norm_num
        rw [h2]
        exact rndVal_intCast 132 (by norm_num))).mpr
    norm_num [abs_of_nonneg]
  have hc2 : changes (newpwm (F32.fin 25) (F32.fin 35) 30) 196 = true := by
    rw [newpwm_default_30]
    apply (changes_of_exact (v := 0) (p := 196) (by norm_num) (by norm_num)
      (by norm_num) (by
        have h2 : (0 : ℚ) - ((196 : ℕ) : ℚ) = ((-196 : ℤ) : ℚ) := by norm_num
        rw [h2]
        exact rndVal_intCast (-196) (by norm_num))).mpr
    norm_num [abs_of_nonneg]
  have h1 : iteration (defaultConfig 0) initState (okEnv 39 (-1) (-1)) =
      ⟨196, Status.running,
        [Event.getTemperature, Event.syslogInfo 39 64 (F32.fin 196), Event.write 196,
         Event.fsync, Event.sleep 10]⟩ := by
    rw [iteration_of_changes (defaultConfig 0) initState
      (okEnv 39 (-1) (-1)) rfl hc1]
    show LoopState.mk (floatToUChar (newpwm (F32.fin 25) (F32.fin 35) 39)) Status.running
      ([] ++ [Event.getTemperature,
        Event.syslogInfo 39 64 (newpwm (F32.fin 25) (F32.fin 35) 39),
        Event.write (floatToUChar (newpwm (F32.fin 25) (F32.fin 35) 39)), Event.fsync,
        Event.sleep 10]) = _
    rw [newpwm_default_39, floatToUChar_196]
    rfl
  refine ⟨fun cfg s temp w f => ⟨rfl, iteration_status_of_ok cfg s _ rfl⟩, h1, ?_⟩
  rw [run_cons_running rfl, h1, run_cons_running rfl]
  rw [iteration_of_changes (defaultConfig 0)
    ⟨196, Status.running,
      [Event.getTemperature, Event.syslogInfo 39 64 (F32.fin 196), Event.write 196,
       Event.fsync, Event.sleep 10]⟩ (okEnv 30 1 0) rfl hc2]
  show LoopState.mk (floatToUChar (newpwm (F32.fin 25) (F32.fin 35) 30)) Status.running
    ([Event.getTemperature, Event.syslogInfo 39 64 (F32.fin 196), Event.write 196,
      Event.fsync, Event.sleep 10] ++ [Event.getTemperature,
      Event.syslogInfo 30 196 (newpwm (F32.fin 25) (F32.fin 35) 30),
      Event.write (floatToUChar (newpwm (F32.fin 25) (F32.fin 35) 30)), Event.fsync,
      Event.sleep 10]) = _
  rw [newpwm_default_30, floatToUChar_zero]
  rfl

end Teslafan
